import Mathlib

/-!
# Verification of a 3x3 tic-tac-toe engine with a minimax move selector

Shallow embedding of the game core shared by the two front ends of the
repository (`tictactoe_ai.py` and `web_app.py`; the two copies of the
game/AI logic are line-for-line identical).  The board is a 3x3 grid of
characters, a cell holding `' '` when empty; the computer plays `'O'` and
the human plays `'X'` (the only instantiation the source constructs,
`MinimaxAI('O', 'X', difficulty)`).

Python's recursion on a shrinking set of empty cells is rendered with an
explicit fuel parameter (`minimaxM`); fuel `9` is always enough, since a
board has at most 9 empty cells and each recursive call fills one, and a
fuel-irrelevance lemma shows the parameter is inessential.  Python's
`-float('inf')` / `float('inf')` accumulator seeds are rendered with an
`Option Int` accumulator (`none` standing for the not-yet-seen seed),
which has exactly the ordering behaviour of the infinities against the
finite scores the search produces.
-/

namespace TicTacToe

/-- A coordinate pair `(row, col)`, both in `0..2`. -/
abbrev Cell := Fin 3 × Fin 3

/-- The 3x3 grid of cell values (`self.board`, a list of three lists of
three one-character strings in the source). -/
def Board := Fin 3 → Fin 3 → Char

instance : DecidableEq Board :=
  inferInstanceAs (DecidableEq (Fin 3 → Fin 3 → Char))

/-- Functional rendering of the assignment `board[i][j] = c`. -/
def setCell (b : Board) (i j : Fin 3) (c : Char) : Board :=
  fun i' j' => if i' = i ∧ j' = j then c else b i' j'

/-- Build a board from its nine cells, row-major. -/
def mkB (c00 c01 c02 c10 c11 c12 c20 c21 c22 : Char) : Board := fun i j =>
  if i = 0 then (if j = 0 then c00 else if j = 1 then c01 else c02)
  else if i = 1 then (if j = 0 then c10 else if j = 1 then c11 else c12)
  else (if j = 0 then c20 else if j = 1 then c21 else c22)

/-- The all-blank board (`[[' ' for _ in range(3)] for _ in range(3)]`). -/
def emptyBoard : Board := fun _ _ => ' '

/-- The nine cells in the order every loop of the source visits them
(`for i in range(3): for j in range(3)`). -/
def allCells : List Cell :=
  [(0, 0), (0, 1), (0, 2), (1, 0), (1, 1), (1, 2), (2, 0), (2, 1), (2, 2)]

/-- `TicTacToeGame.get_empty_cells`: the empty cells in row-major order.
The selector's `find_best_move` recomputes the same list inline. -/
def get_empty_cells (b : Board) : List Cell :=
  allCells.filter (fun p => decide (b p.1 p.2 = ' '))

/-- Number of empty cells; the measure that shrinks along the search. -/
def eCount (b : Board) : Nat := (get_empty_cells b).length

/-- `TicTacToeGame.is_board_full` / `MinimaxAI.is_full_static`:
`all(cell != ' ' for row in board for cell in row)`. -/
def is_board_full (b : Board) : Bool :=
  allCells.all (fun p => decide (b p.1 p.2 ≠ ' '))

/-! ## Game state and `make_move`

`make_move(row, col, player)` receives Python `int` coordinates and indexes
`self.board[row][col]`.  Python list indexing on a length-3 list accepts
`-3 <= i < 3`, a negative index wrapping to `i + 3`, and raises `IndexError`
outside that range; `pyIdx` models exactly that, and an `IndexError` is the
`none` result of `make_move`. -/

/-- Python indexing of a length-3 list: the effective index, or `none` for
an `IndexError`. -/
def pyIdx (i : Int) : Option (Fin 3) :=
  if h : 0 ≤ i ∧ i < 3 then some ⟨i.toNat, by omega⟩
  else if h' : -3 ≤ i ∧ i < 0 then some ⟨(i + 3).toNat, by omega⟩
  else none

/-- The mutable state of `TicTacToeGame` that `make_move` touches: the grid
and the ply counter `move_count`. -/
structure Game where
  board : Board
  move_count : Nat

instance : DecidableEq Game := fun g1 g2 =>
  decidable_of_iff (g1.board = g2.board ∧ g1.move_count = g2.move_count)
    (by cases g1; cases g2; simp)

/-- The state `TicTacToeGame.__init__` (and `reset`) builds: blank grid,
ply counter zero. -/
def initGame : Game := ⟨emptyBoard, 0⟩

/-- `TicTacToeGame.make_move`: write `player` into an empty cell and bump
the ply counter, reporting success; `none` models the `IndexError` Python
raises when a coordinate is outside `-3..2`. -/
def make_move (g : Game) (row col : Int) (player : Char) : Option (Game × Bool) :=
  match pyIdx row, pyIdx col with
  | some i, some j =>
      if g.board i j = ' ' then
        some ({ board := setCell g.board i j player, move_count := g.move_count + 1 }, true)
      else
        some (g, false)
  | _, _ => none

/-! ## Winner detection -/

/-- `TicTacToeGame.check_winner` / `MinimaxAI.check_winner_static`: the
three rows, then the three columns, then the two diagonals, returning the
symbol of the first uniformly-occupied non-blank line. -/
def check_winner (b : Board) : Option Char :=
  if b 0 0 = b 0 1 ∧ b 0 1 = b 0 2 ∧ b 0 2 ≠ ' ' then some (b 0 0)
  else if b 1 0 = b 1 1 ∧ b 1 1 = b 1 2 ∧ b 1 2 ≠ ' ' then some (b 1 0)
  else if b 2 0 = b 2 1 ∧ b 2 1 = b 2 2 ∧ b 2 2 ≠ ' ' then some (b 2 0)
  else if b 0 0 = b 1 0 ∧ b 1 0 = b 2 0 ∧ b 2 0 ≠ ' ' then some (b 0 0)
  else if b 0 1 = b 1 1 ∧ b 1 1 = b 2 1 ∧ b 2 1 ≠ ' ' then some (b 0 1)
  else if b 0 2 = b 1 2 ∧ b 1 2 = b 2 2 ∧ b 2 2 ≠ ' ' then some (b 0 2)
  else if b 0 0 = b 1 1 ∧ b 1 1 = b 2 2 ∧ b 2 2 ≠ ' ' then some (b 0 0)
  else if b 0 2 = b 1 1 ∧ b 1 1 = b 2 0 ∧ b 2 0 ≠ ' ' then some (b 0 2)
  else none

/-- One of the eight winning lines, by its three cells. -/
structure Line where
  a : Cell
  b : Cell
  c : Cell
deriving DecidableEq

/-- The eight lines in the order `check_winner` scans them: rows, columns,
the main diagonal, the anti-diagonal. -/
def linesList : List Line :=
  [⟨(0, 0), (0, 1), (0, 2)⟩, ⟨(1, 0), (1, 1), (1, 2)⟩, ⟨(2, 0), (2, 1), (2, 2)⟩,
   ⟨(0, 0), (1, 0), (2, 0)⟩, ⟨(0, 1), (1, 1), (2, 1)⟩, ⟨(0, 2), (1, 2), (2, 2)⟩,
   ⟨(0, 0), (1, 1), (2, 2)⟩, ⟨(0, 2), (1, 1), (2, 0)⟩]

/-- The cell's value, by pair. -/
def atB (b : Board) (p : Cell) : Char := b p.1 p.2

/-- The line is uniformly occupied and non-blank. -/
def completeL (bd : Board) (l : Line) : Prop :=
  atB bd l.a = atB bd l.b ∧ atB bd l.b = atB bd l.c ∧ atB bd l.c ≠ ' '

instance completeL.dec (bd : Board) (l : Line) : Decidable (completeL bd l) := by
  unfold completeL; infer_instance

/-- The line holds `s` in all three cells. -/
def lineIs (bd : Board) (l : Line) (s : Char) : Prop :=
  atB bd l.a = s ∧ atB bd l.b = s ∧ atB bd l.c = s

instance lineIs.dec (bd : Board) (l : Line) (s : Char) : Decidable (lineIs bd l s) := by
  unfold lineIs; infer_instance

/-- Some line is uniformly `s`. -/
def hasLine (bd : Board) (s : Char) : Prop := ∃ l ∈ linesList, lineIs bd l s

instance hasLine.dec (bd : Board) (s : Char) : Decidable (hasLine bd s) := by
  unfold hasLine; infer_instance

/-- The winner check as the specification phrases it: the first line, in
scan order, that is uniformly occupied and non-blank. -/
def winnerSpec (b : Board) : Option Char :=
  (linesList.find? (fun l => decide (completeL b l))).map (fun l => atB b l.a)

/-! ## The minimax engine

`MinimaxAI` is only ever constructed as `MinimaxAI('O', 'X', difficulty)`,
so the computer's symbol is fixed to `'O'` and the human's to `'X'`. -/

/-- `MinimaxAI.evaluate`: `+10` when the winner check names the computer,
`-10` when it names the human, otherwise `0`. -/
def evaluate (b : Board) : Int :=
  if check_winner b = some 'O' then 10
  else if check_winner b = some 'X' then -10
  else 0

/-- Python's `max(best, v)` with `best` seeded at `-float('inf')`:
`none` is the untouched seed, below every score. -/
def optMax (o : Option Int) (v : Int) : Option Int :=
  some (match o with | none => v | some w => max w v)

/-- Python's `min(best, v)` with `best` seeded at `float('inf')`. -/
def optMin (o : Option Int) (v : Int) : Option Int :=
  some (match o with | none => v | some w => min w v)

/-- `MinimaxAI.minimax(board, depth, is_maximizing)`, with fuel for the
recursion.  The fuel-0 fallback `0` is unreachable whenever
`eCount b ≤ fuel`, since a non-terminal board has an empty cell.  The
`.getD 0` unwraps the accumulator; it too is unreachable, since the loop
body runs at least once on a non-full board. -/
def minimaxM (fuel : Nat) (b : Board) (d : Int) (m : Bool) : Int :=
  let score := evaluate b
  if score = 10 then score - d
  else if score = -10 then score + d
  else if is_board_full b then 0
  else match fuel with
  | 0 => 0
  | f + 1 =>
    if m then
      (allCells.foldl (fun best p =>
        if b p.1 p.2 = ' ' then
          optMax best (minimaxM f (setCell b p.1 p.2 'O') (d + 1) false)
        else best) none).getD 0
    else
      (allCells.foldl (fun best p =>
        if b p.1 p.2 = ' ' then
          optMin best (minimaxM f (setCell b p.1 p.2 'X') (d + 1) true)
        else best) none).getD 0

/-- `MinimaxAI.minimax` itself: fuel 9 covers every 3x3 board. -/
def minimax (b : Board) (d : Int) (m : Bool) : Int := minimaxM 9 b d m

/-- The score `find_best_move` computes for an empty cell `p`: place the
computer's symbol there and evaluate the search from the human's
perspective at depth 0. -/
def topVal (b : Board) (p : Cell) : Int :=
  minimax (setCell b p.1 p.2 'O') 0 false

/-- The body of `find_best_move`'s scoring loop on an empty cell, over the
accumulator `(best_val, best_moves)`, with `best_val = none` standing for
the `-float('inf')` seed: a strict improvement (`move_val > best_val`)
resets the tied list, an exact tie (`move_val == best_val`) appends, a
worse score leaves the accumulator alone. -/
def bestCore (b : Board) (acc : Option Int × List Cell) (p : Cell) :
    Option Int × List Cell :=
  match acc with
  | (none, _) => (some (topVal b p), [p])
  | (some bv, ms) =>
      if bv < topVal b p then (some (topVal b p), [p])
      else if topVal b p = bv then (some bv, ms ++ [p])
      else (some bv, ms)

/-- One step of the scoring loop: only empty cells are scored. -/
def bestStep (b : Board) (acc : Option Int × List Cell) (p : Cell) :
    Option Int × List Cell :=
  if b p.1 p.2 = ' ' then bestCore b acc p else acc

/-- The scoring loop of `find_best_move` (run on a deep copy of the board
in the source; the copy is irrelevant to the values). -/
def bestPair (b : Board) : Option Int × List Cell :=
  allCells.foldl (bestStep b) (none, [])

/-- The tied best-scoring cells `find_best_move` collects, in scan order. -/
def best_moves (b : Board) : List Cell := (bestPair b).2

/-- The difficulty levels of the `Difficulty` enum. -/
inductive Difficulty where
  | EASY
  | MEDIUM
  | HARD
deriving DecidableEq

/-- `random.choice(l)` for a non-empty `l`: an arbitrary index `k`,
reduced modulo the length.  The default of `getD` is unreachable for a
non-empty list. -/
def choiceL (l : List Cell) (k : Nat) : Cell := l.getD (k % l.length) (0, 0)

/-- A cell as the Python `(row, col)` tuple of `int`s the selector
returns. -/
def mv (p : Cell) : Int × Int := ((p.1.val : Int), (p.2.val : Int))

/-- `MinimaxAI.find_best_move`.  `coin` stands for the outcome of Medium's
`random.random() < 0.3` draw and `k` for the index `random.choice` picks;
`(-1, -1)` is the source's sentinel for a full board. -/
def find_best_move (diff : Difficulty) (b : Board) (coin : Bool) (k : Nat) :
    Int × Int :=
  let empty_cells := get_empty_cells b
  if diff = .EASY then
    if empty_cells.isEmpty then (-1, -1) else mv (choiceL empty_cells k)
  else
    let bm := best_moves b
    if diff = .MEDIUM then
      if coin && !empty_cells.isEmpty then mv (choiceL empty_cells k)
      else if bm.isEmpty then (-1, -1) else mv (choiceL bm k)
    else
      if bm.isEmpty then (-1, -1) else mv (choiceL bm k)

/-- The cell `p`, placed for `s`, completes a line for `s`: `p` is empty
and the board with `s` at `p` has a uniform `s` line.  This is the sense
in which a player is "one move away" from winning. -/
def completesLine (b : Board) (s : Char) (p : Cell) : Prop :=
  b p.1 p.2 = ' ' ∧ hasLine (setCell b p.1 p.2 s) s

instance completesLine.dec (b : Board) (s : Char) (p : Cell) :
    Decidable (completesLine b s p) := by
  unfold completesLine; infer_instance

/-- `s` has at least one immediately winning cell on `b`. -/
def hasWinningCell (b : Board) (s : Char) : Bool :=
  (get_empty_cells b).any (fun p => decide (hasLine (setCell b p.1 p.2 s) s))

/-! ## The search as the source writes it: one shared mutable board

`minimax` in the source mutates a single board object — `board[i][j] =
self.ai_player`, recurse, `board[i][j] = ' '` — and `find_best_move`'s
scoring loop does the same on its deep copy.  `minimaxS` renders that
literally, threading the board through every step and returning it
alongside the score; `minimaxS_spec` proves each call hands its board back
exactly as received (every placement undone) and that the value agrees
with the functional `minimaxM`. -/

def minimaxS (fuel : Nat) (b : Board) (d : Int) (m : Bool) : Int × Board :=
  let score := evaluate b
  if score = 10 then (score - d, b)
  else if score = -10 then (score + d, b)
  else if is_board_full b then (0, b)
  else match fuel with
  | 0 => (0, b)
  | f + 1 =>
    if m then
      let r := allCells.foldl (fun acc p =>
        if acc.2 p.1 p.2 = ' ' then
          let s := minimaxS f (setCell acc.2 p.1 p.2 'O') (d + 1) false
          (optMax acc.1 s.1, setCell s.2 p.1 p.2 ' ')
        else acc) ((none : Option Int), b)
      (r.1.getD 0, r.2)
    else
      let r := allCells.foldl (fun acc p =>
        if acc.2 p.1 p.2 = ' ' then
          let s := minimaxS f (setCell acc.2 p.1 p.2 'X') (d + 1) true
          (optMin acc.1 s.1, setCell s.2 p.1 p.2 ' ')
        else acc) ((none : Option Int), b)
      (r.1.getD 0, r.2)

/-- One step of `minimaxS`'s maximising loop, named for the proofs. -/
def stepMaxS (f : Nat) (d : Int) (acc : Option Int × Board) (p : Cell) :
    Option Int × Board :=
  if acc.2 p.1 p.2 = ' ' then
    let s := minimaxS f (setCell acc.2 p.1 p.2 'O') (d + 1) false
    (optMax acc.1 s.1, setCell s.2 p.1 p.2 ' ')
  else acc

/-- One step of `minimaxS`'s minimising loop, named for the proofs. -/
def stepMinS (f : Nat) (d : Int) (acc : Option Int × Board) (p : Cell) :
    Option Int × Board :=
  if acc.2 p.1 p.2 = ' ' then
    let s := minimaxS f (setCell acc.2 p.1 p.2 'X') (d + 1) true
    (optMin acc.1 s.1, setCell s.2 p.1 p.2 ' ')
  else acc

/-- The tie-collecting accumulator update of `find_best_move`, on an
already-computed score. -/
def valCore (acc : Option Int × List Cell) (p : Cell) (v : Int) :
    Option Int × List Cell :=
  match acc with
  | (none, _) => (some v, [p])
  | (some bv, ms) =>
      if bv < v then (some v, [p])
      else if v = bv then (some bv, ms ++ [p])
      else (some bv, ms)

/-- The scoring loop of `find_best_move` as the source writes it: place the
computer's symbol on the (copied) board, run the stateful search, undo the
placement, and fold the score into the tied-best accumulator. -/
def bestLoopS (b0 : Board) : (Option Int × List Cell) × Board :=
  allCells.foldl (fun acc p =>
    if acc.2 p.1 p.2 = ' ' then
      let r := minimaxS 9 (setCell acc.2 p.1 p.2 'O') 0 false
      (valCore acc.1 p r.1, setCell r.2 p.1 p.2 ' ')
    else acc) ((none, []), b0)

/-- The running maximum of the top-level scores along a cell list. -/
def runMax (b : Board) (m : Int) (t : List Cell) : Int :=
  (t.map (topVal b)).foldl max m

/-! ## Score records: `GameStats` / the web app's stats dict

The same update logic appears as `GameStats.update_game` in the desktop
front end and `update_stats` in the web front end; the two bodies are
identical.  `best_time` starts at Python's `float('inf')`, the sentinel
§6 of the specification reads as "unset"; all finite times the program
stores are `int(...)` seconds. -/

/-- `best_time`: either the `float('inf')` "unset" sentinel or a finite
number of seconds. -/
inductive BTime where
  | inf
  | fin (t : Int)
deriving DecidableEq

/-- Python's `time_taken < best_time` against a possibly-infinite
`best_time`. -/
def BTime.ltInt (t : Int) : BTime → Prop
  | .inf => True
  | .fin u => t < u

instance BTime.ltInt.dec (t : Int) (b : BTime) : Decidable (BTime.ltInt t b) := by
  cases b <;> (unfold BTime.ltInt; infer_instance)

/-- The order on best times, infinity on top. -/
def BTime.le : BTime → BTime → Prop
  | _, .inf => True
  | .inf, .fin _ => False
  | .fin u, .fin v => u ≤ v

/-- The per-difficulty win counters (`difficulty_wins`). -/
structure DiffWins where
  EASY : Int
  MEDIUM : Int
  HARD : Int
deriving DecidableEq

/-- The difficulty label strings the callers pass (`'EASY'`, `'MEDIUM'`,
`'HARD'`, from the UI's difficulty control). -/
inductive DLabel where
  | EASY
  | MEDIUM
  | HARD
deriving DecidableEq

/-- `self.stats['difficulty_wins'][difficulty] += 1`. -/
def bumpDW (dw : DiffWins) (d : DLabel) : DiffWins :=
  match d with
  | .EASY => { dw with EASY := dw.EASY + 1 }
  | .MEDIUM => { dw with MEDIUM := dw.MEDIUM + 1 }
  | .HARD => { dw with HARD := dw.HARD + 1 }

/-- A well-formed score record: the dict `GameStats.__init__` builds, with
its seven keys. -/
structure Stats where
  wins : Int
  losses : Int
  draws : Int
  win_streak : Int
  best_time : BTime
  games_played : Int
  difficulty_wins : DiffWins
deriving DecidableEq

/-- `GameStats.update_game(result, time_taken, difficulty)` — identical to
the web front end's `update_stats`: one game is tallied; `'W'` bumps wins,
streak, the difficulty bucket, and lowers `best_time` if beaten; `'L'`
bumps losses and clears the streak; anything else is a draw. -/
def update_game (s : Stats) (result : Char) (time_taken : Int)
    (difficulty : DLabel) : Stats :=
  let s1 := { s with games_played := s.games_played + 1 }
  if result = 'W' then
    { s1 with
      wins := s1.wins + 1,
      win_streak := s1.win_streak + 1,
      difficulty_wins := bumpDW s1.difficulty_wins difficulty,
      best_time :=
        if BTime.ltInt time_taken s1.best_time then .fin time_taken
        else s1.best_time }
  else if result = 'L' then
    { s1 with losses := s1.losses + 1, win_streak := 0 }
  else
    { s1 with draws := s1.draws + 1, win_streak := 0 }

/-- The JSON values the stats file holds: integers, the non-standard
`Infinity` token Python's `json.dump` writes for `float('inf')` (and
`json.load` reads back), and string-keyed objects in insertion order. -/
inductive J where
  | num (n : Int)
  | inf
  | obj (fields : List (String × J))

/-- `GameStats.save_stats`: `json.dump(self.stats, f)` on a well-formed
record — the keys in the order `__init__` creates them, `float('inf')`
written as `Infinity`. -/
def save_stats (s : Stats) : J :=
  J.obj [("wins", J.num s.wins), ("losses", J.num s.losses),
    ("draws", J.num s.draws), ("win_streak", J.num s.win_streak),
    ("best_time", match s.best_time with | .inf => J.inf | .fin t => J.num t),
    ("games_played", J.num s.games_played),
    ("difficulty_wins", J.obj [("EASY", J.num s.difficulty_wins.EASY),
      ("MEDIUM", J.num s.difficulty_wins.MEDIUM),
      ("HARD", J.num s.difficulty_wins.HARD)])]

/-- `GameStats.load_stats`: `json.load` followed by the keyed reads the
rest of the class performs; a value that is not a well-formed record is
`none` (the source would fall back to the defaults or fail later). -/
def load_stats (j : J) : Option Stats :=
  match j with
  | J.obj fs =>
    match fs.lookup "wins", fs.lookup "losses", fs.lookup "draws",
        fs.lookup "win_streak", fs.lookup "best_time",
        fs.lookup "games_played", fs.lookup "difficulty_wins" with
    | some (J.num w), some (J.num l), some (J.num dr), some (J.num ws),
        some bt, some (J.num gp), some (J.obj dws) =>
      match dws.lookup "EASY", dws.lookup "MEDIUM", dws.lookup "HARD" with
      | some (J.num e), some (J.num md), some (J.num h) =>
        match bt with
        | J.num t => some ⟨w, l, dr, ws, .fin t, gp, ⟨e, md, h⟩⟩
        | J.inf => some ⟨w, l, dr, ws, .inf, gp, ⟨e, md, h⟩⟩
        | _ => none
      | _, _, _ => none
    | _, _, _, _, _, _, _ => none
  | _ => none

/-- The maximum of the top-level scores over the empty cells, `none` on a
full board.  This is the specification's "maximum over all empty cells"
against which the best-set is defined. -/
def maxTop (b : Board) : Option Int := ((get_empty_cells b).map (topVal b)).max?

/-! ## The concrete boards used as checked inputs -/

/-- A legal position (X to move made 3 moves, O made 2, O to move) where
the human forks: `X X .` / `. O .` / `X . O` — row 0 wants `(0,2)` and
column 0 wants `(1,0)`.  Every computer reply loses at the same depth, so
all four empty cells tie in the search. -/
def bFork : Board := mkB 'X' 'X' ' ' ' ' 'O' ' ' 'X' ' ' 'O'

/-- A single-threat position: `X X .` / `. O .` / `. . .` — the human's
only winning cell is `(0, 2)` and the computer has none. -/
def bT : Board := mkB 'X' 'X' ' ' ' ' 'O' ' ' ' ' ' ' ' '

/-- A position with one human threat at `(0, 2)` and one computer winning
cell at `(1, 2)`: `X X .` / `O O .` / `. . .`. -/
def bW2 : Board := mkB 'X' 'X' ' ' 'O' 'O' ' ' ' ' ' ' ' '

/-- An almost-full drawn position with the single empty cell `(2, 2)`:
`X O X` / `X O O` / `O X .`. -/
def bOne : Board := mkB 'X' 'O' 'X' 'X' 'O' 'O' 'O' 'X' ' '

/-- A board the computer has won: `O O O` / `X X .` / `. X .`. -/
def bOwin : Board := mkB 'O' 'O' 'O' 'X' 'X' ' ' ' ' 'X' ' '

/-- A board the human has won: `X X X` / `O O .` / `. . .`. -/
def bXwin : Board := mkB 'X' 'X' 'X' 'O' 'O' ' ' ' ' ' ' ' '

/-- A full drawn board: `X O X` / `X O O` / `O X X`. -/
def bDraw : Board := mkB 'X' 'O' 'X' 'X' 'O' 'O' 'O' 'X' 'X'

/-- A malformed board with two completed lines, `X`'s row 0 first in scan
order: `X X X` / `O O O` / `. . .`. -/
def bTwoLines : Board := mkB 'X' 'X' 'X' 'O' 'O' 'O' ' ' ' ' ' '

/-! ## Basic lemmas about cells, boards and the empty-cell list -/

theorem setCell_self (b : Board) (i j : Fin 3) (c : Char) :
    setCell b i j c i j = c := by
  simp [setCell]

theorem setCell_of_ne (b : Board) (i j : Fin 3) (c : Char) {i' j' : Fin 3}
    (h : ¬(i' = i ∧ j' = j)) : setCell b i j c i' j' = b i' j' := by
  simp only [setCell, if_neg h]

theorem atB_setCell (b : Board) (p : Cell) (c : Char) (q : Cell) :
    atB (setCell b p.1 p.2 c) q = if q = p then c else atB b q := by
  rcases p with ⟨i, j⟩
  rcases q with ⟨i', j'⟩
  by_cases h : i' = i ∧ j' = j
  · rcases h with ⟨rfl, rfl⟩
    simp [atB, setCell_self]
  · rw [if_neg (by simpa [Prod.ext_iff] using h)]
    exact setCell_of_ne b i j c h

theorem atB_setCell_self (b : Board) (p : Cell) (c : Char) :
    atB (setCell b p.1 p.2 c) p = c := by
  rw [atB_setCell, if_pos rfl]

theorem atB_setCell_ne (b : Board) (p : Cell) (c : Char) {q : Cell}
    (h : q ≠ p) : atB (setCell b p.1 p.2 c) q = atB b q := by
  rw [atB_setCell, if_neg h]

theorem setCell_comm (b : Board) {p q : Cell} (h : p ≠ q) (c1 c2 : Char) :
    setCell (setCell b p.1 p.2 c1) q.1 q.2 c2 =
      setCell (setCell b q.1 q.2 c2) p.1 p.2 c1 := by
  funext i' j'
  by_cases hq : i' = q.1 ∧ j' = q.2
  · have hnp : ¬(i' = p.1 ∧ j' = p.2) := by
      rintro ⟨h1, h2⟩
      apply h
      have e1 : p.1 = q.1 := by rw [← h1, hq.1]
      have e2 : p.2 = q.2 := by rw [← h2, hq.2]
      exact Prod.ext_iff.mpr (And.intro e1 e2)
    simp only [setCell, if_pos hq, if_neg hnp]
  · by_cases hp : i' = p.1 ∧ j' = p.2
    · simp only [setCell, if_pos hp, if_neg hq]
    · simp only [setCell, if_neg hp, if_neg hq]

theorem setCell_restore (b : Board) (p : Cell) (c : Char)
    (h : b p.1 p.2 = ' ') : setCell (setCell b p.1 p.2 c) p.1 p.2 ' ' = b := by
  funext i' j'
  by_cases hp : i' = p.1 ∧ j' = p.2
  · rcases hp with ⟨rfl, rfl⟩
    rw [setCell_self]
    exact h.symm
  · simp only [setCell, if_neg hp]

theorem mem_allCells (p : Cell) : p ∈ allCells := by
  rcases p with ⟨i, j⟩
  fin_cases i <;> fin_cases j <;> simp [allCells]

theorem allCells_nodup : allCells.Nodup := by decide

theorem length_allCells : allCells.length = 9 := by decide

theorem mem_get_empty_cells {b : Board} {p : Cell} :
    p ∈ get_empty_cells b ↔ b p.1 p.2 = ' ' := by
  simp [get_empty_cells, List.mem_filter, mem_allCells]

theorem get_empty_cells_nodup (b : Board) : (get_empty_cells b).Nodup :=
  allCells_nodup.filter _

theorem eCount_le_nine (b : Board) : eCount b ≤ 9 :=
  le_trans (List.length_filter_le _ _) (le_of_eq length_allCells)

theorem is_board_full_iff {b : Board} :
    is_board_full b = true ↔ get_empty_cells b = [] := by
  simp [is_board_full, get_empty_cells, List.all_eq_true, List.filter_eq_nil_iff]

theorem is_board_full_false_iff {b : Board} :
    is_board_full b = false ↔ get_empty_cells b ≠ [] := by
  rw [← Bool.not_eq_true, not_iff_not]
  exact is_board_full_iff

theorem get_empty_cells_setCell (b : Board) (p : Cell) (c : Char)
    (hc : c ≠ ' ') :
    get_empty_cells (setCell b p.1 p.2 c) =
      (get_empty_cells b).filter (fun q => decide (q ≠ p)) := by
  unfold get_empty_cells
  rw [List.filter_filter]
  refine List.filter_congr fun q _ => ?_
  by_cases hq : q = p
  · subst hq
    simp [setCell_self, hc]
  · have := atB_setCell_ne b p c hq
    simp only [atB] at this
    simp [this, hq]

theorem eCount_setCell {b : Board} {p : Cell} {c : Char}
    (hp : b p.1 p.2 = ' ') (hc : c ≠ ' ') :
    eCount (setCell b p.1 p.2 c) = eCount b - 1 := by
  unfold eCount
  rw [get_empty_cells_setCell b p c hc]
  have hmem : p ∈ get_empty_cells b := mem_get_empty_cells.mpr hp
  have herase := (get_empty_cells_nodup b).erase_eq_filter p
  have hfe : (fun q : Cell => decide (q ≠ p)) = (fun x : Cell => x != p) := by
    funext q
    simp [bne, beq_eq_decide, decide_not]
  rw [hfe, ← herase]
  exact List.length_erase_of_mem hmem

/-! ## Folding with `max`, `min` and the infinite seeds -/

theorem le_foldl_max (a v : Int) (vs : List Int) (h : a ≤ v) :
    a ≤ vs.foldl max v := by
  induction vs generalizing v with
  | nil => exact h
  | cons x t ih => exact ih (max v x) (le_trans h (le_max_left v x))

theorem foldl_max_le {c v : Int} {vs : List Int} (hv : v ≤ c)
    (h : ∀ x ∈ vs, x ≤ c) : vs.foldl max v ≤ c := by
  induction vs generalizing v with
  | nil => exact hv
  | cons x t ih =>
      exact ih (max_le hv (h x (List.mem_cons_self _ _)))
        fun y hy => h y (List.mem_cons_of_mem x hy)

theorem le_foldl_max_of_mem {x v : Int} {vs : List Int} (hx : x ∈ vs) :
    x ≤ vs.foldl max v := by
  induction vs generalizing v with
  | nil => cases hx
  | cons y t ih =>
      rcases List.mem_cons.mp hx with rfl | hx'
      · exact le_foldl_max x (max v x) t (le_max_right v x)
      · exact ih hx'

theorem foldl_max_mem (v : Int) (vs : List Int) : vs.foldl max v ∈ v :: vs := by
  induction vs generalizing v with
  | nil => exact List.mem_cons_self _ _
  | cons x t ih =>
      have h := ih (max v x)
      rcases List.mem_cons.mp h with h' | h'
      · rcases max_choice v x with hm | hm <;> rw [List.foldl_cons, h', hm]
        · exact List.mem_cons_self _ _
        · exact List.mem_cons_of_mem v (List.mem_cons_self _ _)
      · exact List.mem_cons_of_mem v (List.mem_cons_of_mem x h')

theorem foldl_min_ge {c v : Int} {vs : List Int} (hv : c ≤ v)
    (h : ∀ x ∈ vs, c ≤ x) : c ≤ vs.foldl min v := by
  induction vs generalizing v with
  | nil => exact hv
  | cons x t ih =>
      exact ih (le_min hv (h x (List.mem_cons_self _ _)))
        fun y hy => h y (List.mem_cons_of_mem x hy)

theorem foldl_min_le_seed (v : Int) (vs : List Int) : vs.foldl min v ≤ v := by
  induction vs generalizing v with
  | nil => exact le_refl v
  | cons x t ih => exact le_trans (ih (min v x)) (min_le_left v x)

theorem foldl_min_le_of_mem {x v : Int} {vs : List Int} (hx : x ∈ vs) :
    vs.foldl min v ≤ x := by
  induction vs generalizing v with
  | nil => cases hx
  | cons y t ih =>
      rcases List.mem_cons.mp hx with rfl | hx'
      · exact le_trans (foldl_min_le_seed (min v x) t) (min_le_right v x)
      · exact ih hx'

theorem foldl_min_mem (v : Int) (vs : List Int) : vs.foldl min v ∈ v :: vs := by
  induction vs generalizing v with
  | nil => exact List.mem_cons_self _ _
  | cons x t ih =>
      have h := ih (min v x)
      rcases List.mem_cons.mp h with h' | h'
      · rcases min_choice v x with hm | hm <;> rw [List.foldl_cons, h', hm]
        · exact List.mem_cons_self _ _
        · exact List.mem_cons_of_mem v (List.mem_cons_self _ _)
      · exact List.mem_cons_of_mem v (List.mem_cons_of_mem x h')

theorem foldl_optMax_some (vs : List Int) :
    ∀ w, vs.foldl optMax (some w) = some (vs.foldl max w) := by
  induction vs with
  | nil => intro w; rfl
  | cons x t ih => intro w; exact ih (max w x)

theorem foldl_optMax_cons (v : Int) (vs : List Int) :
    (v :: vs).foldl optMax none = some (vs.foldl max v) := by
  rw [List.foldl_cons]
  exact foldl_optMax_some vs v

theorem foldl_optMin_some (vs : List Int) :
    ∀ w, vs.foldl optMin (some w) = some (vs.foldl min w) := by
  induction vs with
  | nil => intro w; rfl
  | cons x t ih => intro w; exact ih (min w x)

theorem foldl_optMin_cons (v : Int) (vs : List Int) :
    (v :: vs).foldl optMin none = some (vs.foldl min v) := by
  rw [List.foldl_cons]
  exact foldl_optMin_some vs v

theorem foldl_optMax_map {α : Type} (V : α → Int) (ps : List α) :
    ∀ w, ps.foldl (fun acc q => optMax acc (V q)) (some w) =
      some ((ps.map V).foldl max w) := by
  induction ps with
  | nil => intro w; rfl
  | cons x t ih =>
      intro w
      simp only [List.foldl_cons, List.map_cons]
      exact ih (max w (V x))

theorem foldl_optMin_map {α : Type} (V : α → Int) (ps : List α) :
    ∀ w, ps.foldl (fun acc q => optMin acc (V q)) (some w) =
      some ((ps.map V).foldl min w) := by
  induction ps with
  | nil => intro w; rfl
  | cons x t ih =>
      intro w
      simp only [List.foldl_cons, List.map_cons]
      exact ih (min w (V x))

/-- A guarded fold is the fold over the filtered list. -/
theorem foldl_guard {α β : Type} (g : α → Prop) [DecidablePred g]
    (f : β → α → β) (l : List α) :
    ∀ init, l.foldl (fun acc x => if g x then f acc x else acc) init =
      (l.filter (fun x => decide (g x))).foldl f init := by
  induction l with
  | nil => intro init; rfl
  | cons x t ih =>
      intro init
      by_cases hx : g x
      · rw [List.foldl_cons, if_pos hx, List.filter_cons_of_pos (by simpa using hx)]
        exact ih (f init x)
      · rw [List.foldl_cons, if_neg hx, List.filter_cons_of_neg (by simpa using hx)]
        exact ih init

/-! ## Winner-check lemmas -/

theorem completesLine_def {b : Board} {s : Char} {p : Cell} :
    completesLine b s p ↔
      b p.1 p.2 = ' ' ∧ ∃ l ∈ linesList, lineIs (setCell b p.1 p.2 s) l s :=
  Iff.rfl

theorem check_winner_eq_winnerSpec (b : Board) : check_winner b = winnerSpec b := by
  unfold check_winner winnerSpec linesList
  split_ifs with h1 h2 h3 h4 h5 h6 h7 h8 <;>
    simp_all [completeL, atB, List.find?_cons_of_pos, List.find?_cons_of_neg]

theorem check_winner_eq_none_iff {b : Board} :
    check_winner b = none ↔ ∀ l ∈ linesList, ¬ completeL b l := by
  rw [check_winner_eq_winnerSpec]
  simp [winnerSpec, List.find?_eq_none]

theorem check_winner_isSome_iff {b : Board} :
    (check_winner b).isSome ↔ ∃ l ∈ linesList, completeL b l := by
  rw [check_winner_eq_winnerSpec]
  simp [winnerSpec, List.find?_isSome]

theorem lineIs_completeL {bd : Board} {l : Line} {s : Char}
    (h : lineIs bd l s) (hs : s ≠ ' ') : completeL bd l :=
  ⟨h.1.trans h.2.1.symm, h.2.1.trans h.2.2.symm, by rw [h.2.2]; exact hs⟩

theorem check_winner_eq_some_sym {b : Board} {s : Char}
    (h : check_winner b = some s) : s ≠ ' ' ∧ ∃ l ∈ linesList, lineIs b l s := by
  rw [check_winner_eq_winnerSpec] at h
  unfold winnerSpec at h
  obtain ⟨l, hfind, hsym⟩ := Option.map_eq_some'.mp h
  have hcomp : completeL b l := by simpa using List.find?_some hfind
  have hmem : l ∈ linesList := List.mem_of_find?_eq_some hfind
  obtain ⟨hab, hbc, hcne⟩ := hcomp
  have has : atB b l.a = s := hsym
  have hbs : atB b l.b = s := hab.symm.trans has
  have hcs : atB b l.c = s := hbc.symm.trans hbs
  exact ⟨fun hs => hcne (hcs.trans hs), l, hmem, has, hbs, hcs⟩

theorem check_winner_all_s {b : Board} {s : Char}
    (hex : ∃ l ∈ linesList, completeL b l)
    (hall : ∀ l ∈ linesList, completeL b l → lineIs b l s) :
    check_winner b = some s := by
  rw [check_winner_eq_winnerSpec]
  unfold winnerSpec
  obtain ⟨l, hm, hc⟩ := hex
  have hsome : (linesList.find? fun l => decide (completeL b l)).isSome :=
    List.find?_isSome.mpr ⟨l, hm, by simpa using hc⟩
  obtain ⟨l0, hl0⟩ := Option.isSome_iff_exists.mp hsome
  have hc0 : completeL b l0 := by simpa using List.find?_some hl0
  have hm0 : l0 ∈ linesList := List.mem_of_find?_eq_some hl0
  rw [hl0, Option.map_some']
  exact congrArg some (hall l0 hm0 hc0).1

theorem not_mem_line {bd : Board} {l : Line} {s : Char} (h : lineIs bd l s)
    {p : Cell} (hp : atB bd p ≠ s) : p ≠ l.a ∧ p ≠ l.b ∧ p ≠ l.c := by
  refine ⟨?_, ?_, ?_⟩ <;> rintro rfl
  exacts [hp h.1, hp h.2.1, hp h.2.2]

theorem lineIs_setCell_iff {bd : Board} {p : Cell} {c : Char} {l : Line} {s : Char}
    (hna : p ≠ l.a) (hnb : p ≠ l.b) (hnc : p ≠ l.c) :
    lineIs (setCell bd p.1 p.2 c) l s ↔ lineIs bd l s := by
  unfold lineIs
  rw [atB_setCell_ne bd p c hna.symm, atB_setCell_ne bd p c hnb.symm,
    atB_setCell_ne bd p c hnc.symm]

theorem completeL_setCell_cases {bd : Board} {p : Cell} {c : Char} {l : Line}
    (h : completeL (setCell bd p.1 p.2 c) l) :
    completeL bd l ∨ lineIs (setCell bd p.1 p.2 c) l c := by
  by_cases hmem : p = l.a ∨ p = l.b ∨ p = l.c
  · right
    obtain ⟨hab, hbc, hcc⟩ := h
    have hp : atB (setCell bd p.1 p.2 c) p = c := atB_setCell_self bd p c
    rcases hmem with hpa | hpb | hpc
    · have hpA : atB (setCell bd p.1 p.2 c) l.a = c := by rw [← hpa]; exact hp
      exact ⟨hpA, hab.symm.trans hpA, hbc.symm.trans (hab.symm.trans hpA)⟩
    · have hpB : atB (setCell bd p.1 p.2 c) l.b = c := by rw [← hpb]; exact hp
      exact ⟨hab.trans hpB, hpB, hbc.symm.trans hpB⟩
    · have hpC : atB (setCell bd p.1 p.2 c) l.c = c := by rw [← hpc]; exact hp
      exact ⟨hab.trans (hbc.trans hpC), hbc.trans hpC, hpC⟩
  · left
    push_neg at hmem
    obtain ⟨h1, h2, h3⟩ := hmem
    unfold completeL at h ⊢
    rwa [atB_setCell_ne bd p c h1.symm, atB_setCell_ne bd p c h2.symm,
      atB_setCell_ne bd p c h3.symm] at h

theorem completeL_setCell_of_none {b : Board} {p : Cell} {c : Char}
    (hb : check_winner b = none) {l : Line} (hl : l ∈ linesList)
    (h : completeL (setCell b p.1 p.2 c) l) : lineIs (setCell b p.1 p.2 c) l c := by
  rcases completeL_setCell_cases h with hold | hnew
  · exact absurd hold (check_winner_eq_none_iff.mp hb l hl)
  · exact hnew

theorem check_winner_setCell_some {b : Board} {p : Cell} {s : Char}
    (hb : check_winner b = none) (hs : s ≠ ' ')
    (hwin : hasLine (setCell b p.1 p.2 s) s) :
    check_winner (setCell b p.1 p.2 s) = some s := by
  obtain ⟨l, hm, hli⟩ := hwin
  refine check_winner_all_s ⟨l, hm, lineIs_completeL hli hs⟩ ?_
  intro l2 hm2 hc2
  exact completeL_setCell_of_none hb hm2 hc2

theorem check_winner_setCell_none {b : Board} {p : Cell} {s : Char}
    (hb : check_winner b = none) (hwin : ¬ hasLine (setCell b p.1 p.2 s) s) :
    check_winner (setCell b p.1 p.2 s) = none := by
  rw [check_winner_eq_none_iff]
  intro l hl hc
  exact hwin ⟨l, hl, completeL_setCell_of_none hb hl hc⟩

theorem completesLine_reflect {b : Board} {p q : Cell}
    (hp : b p.1 p.2 = ' ')
    (h : completesLine (setCell b p.1 p.2 'O') 'X' q) :
    completesLine b 'X' q := by
  obtain ⟨hqe, l, hm, hli⟩ := completesLine_def.mp h
  have hqp : q ≠ p := by
    rintro rfl
    rw [setCell_self] at hqe
    exact absurd hqe (by decide)
  have hpv : atB (setCell (setCell b p.1 p.2 'O') q.1 q.2 'X') p = 'O' := by
    rw [atB_setCell_ne _ q 'X' hqp.symm]
    exact atB_setCell_self b p 'O'
  obtain ⟨h1, h2, h3⟩ := not_mem_line hli (by rw [hpv]; decide)
  refine completesLine_def.mpr ⟨?_, l, hm, ?_⟩
  · have := atB_setCell_ne b p 'O' hqp
    unfold atB at this
    rw [← this]
    exact hqe
  · have hcomm := setCell_comm b (Ne.symm hqp) 'O' 'X'
    rw [hcomm] at hli
    exact (lineIs_setCell_iff h1 h2 h3).mp hli

theorem completesLine_preserve {b : Board} {p q : Cell}
    (hc : completesLine b 'X' q) (hp : b p.1 p.2 = ' ') (hpq : p ≠ q) :
    completesLine (setCell b p.1 p.2 'O') 'X' q := by
  obtain ⟨hqe, l, hm, hli⟩ := completesLine_def.mp hc
  have hpv : atB (setCell b q.1 q.2 'X') p ≠ 'X' := by
    rw [atB_setCell_ne b q 'X' hpq]
    unfold atB
    rw [hp]
    decide
  obtain ⟨h1, h2, h3⟩ := not_mem_line hli hpv
  refine completesLine_def.mpr ⟨?_, l, hm, ?_⟩
  · show setCell b p.1 p.2 'O' q.1 q.2 = ' '
    have := atB_setCell_ne b p 'O' hpq.symm
    unfold atB at this
    rw [this]
    exact hqe
  · rw [setCell_comm b hpq 'O' 'X']
    exact (lineIs_setCell_iff h1 h2 h3).mpr hli

theorem hasWinningCell_iff {b : Board} {s : Char} :
    hasWinningCell b s = true ↔ ∃ p, completesLine b s p := by
  unfold hasWinningCell
  rw [List.any_eq_true]
  constructor
  · rintro ⟨p, hp, hw⟩
    exact ⟨p, mem_get_empty_cells.mp hp, by simpa using hw⟩
  · rintro ⟨p, he, hw⟩
    exact ⟨p, mem_get_empty_cells.mpr he, by simpa using hw⟩

/-! ## Normal forms and fuel irrelevance for `minimaxM` -/

theorem evaluate_zero {b : Board} (hO : check_winner b ≠ some 'O')
    (hX : check_winner b ≠ some 'X') : evaluate b = 0 := by
  unfold evaluate
  rw [if_neg hO, if_neg hX]

theorem minimaxM_of_winner_O {fuel : Nat} {b : Board} {d : Int} {m : Bool}
    (h : check_winner b = some 'O') : minimaxM fuel b d m = 10 - d := by
  unfold minimaxM evaluate
  rw [if_pos h]
  norm_num

theorem minimaxM_of_winner_X {fuel : Nat} {b : Board} {d : Int} {m : Bool}
    (h : check_winner b = some 'X') : minimaxM fuel b d m = -10 + d := by
  have hO : check_winner b ≠ some 'O' := by rw [h]; decide
  unfold minimaxM evaluate
  rw [if_neg hO, if_pos h]
  norm_num

theorem minimaxM_of_full {fuel : Nat} {b : Board} {d : Int} {m : Bool}
    (hO : check_winner b ≠ some 'O') (hX : check_winner b ≠ some 'X')
    (hf : is_board_full b = true) : minimaxM fuel b d m = 0 := by
  unfold minimaxM
  rw [evaluate_zero hO hX]
  norm_num [hf]

theorem minimaxM_max_eq (f : Nat) {b : Board} (d : Int) {p : Cell} {ps : List Cell}
    (hO : check_winner b ≠ some 'O') (hX : check_winner b ≠ some 'X')
    (hE : get_empty_cells b = p :: ps) :
    minimaxM (f + 1) b d true =
      (ps.map fun q => minimaxM f (setCell b q.1 q.2 'O') (d + 1) false).foldl max
        (minimaxM f (setCell b p.1 p.2 'O') (d + 1) false) := by
  have hfull : is_board_full b = false :=
    is_board_full_false_iff.mpr (by rw [hE]; exact List.cons_ne_nil p ps)
  rw [minimaxM]
  rw [evaluate_zero hO hX]
  norm_num [hfull]
  rw [foldl_guard (fun q : Cell => b q.1 q.2 = ' ')
    (fun best q => optMax best (minimaxM f (setCell b q.1 q.2 'O') (d + 1) false))
    allCells none]
  have : allCells.filter (fun q : Cell => decide (b q.1 q.2 = ' ')) =
      get_empty_cells b := rfl
  rw [this, hE, List.foldl_cons]
  show (ps.foldl (fun acc q =>
      optMax acc (minimaxM f (setCell b q.1 q.2 'O') (d + 1) false))
      (optMax none (minimaxM f (setCell b p.1 p.2 'O') (d + 1) false))).getD 0 = _
  rw [show optMax none (minimaxM f (setCell b p.1 p.2 'O') (d + 1) false) =
      some (minimaxM f (setCell b p.1 p.2 'O') (d + 1) false) from rfl,
    foldl_optMax_map (fun q : Cell => minimaxM f (setCell b q.1 q.2 'O') (d + 1) false) ps]
  rfl

theorem minimaxM_min_eq (f : Nat) {b : Board} (d : Int) {p : Cell} {ps : List Cell}
    (hO : check_winner b ≠ some 'O') (hX : check_winner b ≠ some 'X')
    (hE : get_empty_cells b = p :: ps) :
    minimaxM (f + 1) b d false =
      (ps.map fun q => minimaxM f (setCell b q.1 q.2 'X') (d + 1) true).foldl min
        (minimaxM f (setCell b p.1 p.2 'X') (d + 1) true) := by
  have hfull : is_board_full b = false :=
    is_board_full_false_iff.mpr (by rw [hE]; exact List.cons_ne_nil p ps)
  rw [minimaxM]
  rw [evaluate_zero hO hX]
  norm_num [hfull]
  rw [foldl_guard (fun q : Cell => b q.1 q.2 = ' ')
    (fun best q => optMin best (minimaxM f (setCell b q.1 q.2 'X') (d + 1) true))
    allCells none]
  have : allCells.filter (fun q : Cell => decide (b q.1 q.2 = ' ')) =
      get_empty_cells b := rfl
  rw [this, hE, List.foldl_cons]
  show (ps.foldl (fun acc q =>
      optMin acc (minimaxM f (setCell b q.1 q.2 'X') (d + 1) true))
      (optMin none (minimaxM f (setCell b p.1 p.2 'X') (d + 1) true))).getD 0 = _
  rw [show optMin none (minimaxM f (setCell b p.1 p.2 'X') (d + 1) true) =
      some (minimaxM f (setCell b p.1 p.2 'X') (d + 1) true) from rfl,
    foldl_optMin_map (fun q : Cell => minimaxM f (setCell b q.1 q.2 'X') (d + 1) true) ps]
  rfl

theorem is_board_full_false {b : Board} (h : ¬ is_board_full b = true) :
    is_board_full b = false := by
  revert h
  cases is_board_full b <;> simp

theorem one_le_eCount {b : Board} {p : Cell} {ps : List Cell}
    (hE : get_empty_cells b = p :: ps) : 1 ≤ eCount b := by
  unfold eCount
  rw [hE]
  exact Nat.succ_le_succ (Nat.zero_le _)

theorem minimaxM_fuel_irrel : ∀ (f1 f2 : Nat) (b : Board) (d : Int) (m : Bool),
    eCount b ≤ f1 → eCount b ≤ f2 → minimaxM f1 b d m = minimaxM f2 b d m := by
  intro f1
  induction f1 with
  | zero =>
      intro f2 b d m h1 _h2
      by_cases hO : check_winner b = some 'O'
      · rw [minimaxM_of_winner_O hO, minimaxM_of_winner_O hO]
      by_cases hX : check_winner b = some 'X'
      · rw [minimaxM_of_winner_X hX, minimaxM_of_winner_X hX]
      have hful : is_board_full b = true := by
        rw [is_board_full_iff]
        exact List.length_eq_zero.mp (Nat.le_zero.mp h1)
      rw [minimaxM_of_full hO hX hful, minimaxM_of_full hO hX hful]
  | succ a ih =>
      intro f2 b d m h1 h2
      by_cases hO : check_winner b = some 'O'
      · rw [minimaxM_of_winner_O hO, minimaxM_of_winner_O hO]
      by_cases hX : check_winner b = some 'X'
      · rw [minimaxM_of_winner_X hX, minimaxM_of_winner_X hX]
      by_cases hful : is_board_full b = true
      · rw [minimaxM_of_full hO hX hful, minimaxM_of_full hO hX hful]
      have hne : get_empty_cells b ≠ [] :=
        is_board_full_false_iff.mp (is_board_full_false hful)
      obtain ⟨p, ps, hE⟩ := List.exists_cons_of_ne_nil hne
      have he1 : 1 ≤ eCount b := one_le_eCount hE
      obtain ⟨c, rfl⟩ : ∃ c, f2 = c + 1 := ⟨f2 - 1, by omega⟩
      cases m with
      | true =>
          rw [minimaxM_max_eq a d hO hX hE, minimaxM_max_eq c d hO hX hE]
          have hm : ∀ q ∈ p :: ps,
              minimaxM a (setCell b q.1 q.2 'O') (d + 1) false =
                minimaxM c (setCell b q.1 q.2 'O') (d + 1) false := by
            intro q hq
            have hqe : b q.1 q.2 = ' ' :=
              mem_get_empty_cells.mp (by rw [hE]; exact hq)
            have hec := eCount_setCell hqe (show ('O' : Char) ≠ ' ' by decide)
            exact ih c _ _ _ (by omega) (by omega)
          rw [List.map_congr_left fun q hq => hm q (List.mem_cons_of_mem p hq),
            hm p (List.mem_cons_self _ _)]
      | false =>
          rw [minimaxM_min_eq a d hO hX hE, minimaxM_min_eq c d hO hX hE]
          have hm : ∀ q ∈ p :: ps,
              minimaxM a (setCell b q.1 q.2 'X') (d + 1) true =
                minimaxM c (setCell b q.1 q.2 'X') (d + 1) true := by
            intro q hq
            have hqe : b q.1 q.2 = ' ' :=
              mem_get_empty_cells.mp (by rw [hE]; exact hq)
            have hec := eCount_setCell hqe (show ('X' : Char) ≠ ' ' by decide)
            exact ih c _ _ _ (by omega) (by omega)
          rw [List.map_congr_left fun q hq => hm q (List.mem_cons_of_mem p hq),
            hm p (List.mem_cons_self _ _)]

/-! ## Value bounds for the search -/

theorem minimaxM_ge : ∀ (f : Nat) (b : Board) (d : Int) (m : Bool),
    eCount b ≤ f → d + (eCount b : Int) ≤ 10 → -10 + d ≤ minimaxM f b d m := by
  intro f
  induction f with
  | zero =>
      intro b d m h1 hd
      have he : eCount b = 0 := Nat.le_zero.mp h1
      rw [he] at hd
      by_cases hO : check_winner b = some 'O'
      · rw [minimaxM_of_winner_O hO]; omega
      by_cases hX : check_winner b = some 'X'
      · rw [minimaxM_of_winner_X hX]
      have hful : is_board_full b = true := by
        rw [is_board_full_iff]
        exact List.length_eq_zero.mp he
      rw [minimaxM_of_full hO hX hful]; omega
  | succ a ih =>
      intro b d m h1 hd
      by_cases hO : check_winner b = some 'O'
      · rw [minimaxM_of_winner_O hO]; omega
      by_cases hX : check_winner b = some 'X'
      · rw [minimaxM_of_winner_X hX]
      by_cases hful : is_board_full b = true
      · rw [minimaxM_of_full hO hX hful]
        have he : eCount b = 0 := by
          unfold eCount
          rw [is_board_full_iff.mp hful]
          rfl
        rw [he] at hd
        omega
      have hne : get_empty_cells b ≠ [] :=
        is_board_full_false_iff.mp (is_board_full_false hful)
      obtain ⟨p, ps, hE⟩ := List.exists_cons_of_ne_nil hne
      have he1 : 1 ≤ eCount b := one_le_eCount hE
      have hchild : ∀ q ∈ p :: ps, ∀ s : Char, s ≠ ' ' →
          eCount (setCell b q.1 q.2 s) = eCount b - 1 := by
        intro q hq s hs
        exact eCount_setCell (mem_get_empty_cells.mp (by rw [hE]; exact hq)) hs
      cases m with
      | true =>
          rw [minimaxM_max_eq a d hO hX hE]
          have hp := hchild p (List.mem_cons_self _ _) 'O' (by decide)
          have hv : -10 + (d + 1) ≤ minimaxM a (setCell b p.1 p.2 'O') (d + 1) false :=
            ih _ _ _ (by omega) (by rw [hp]; omega)
          exact le_trans (by omega) (le_foldl_max _ _ _ hv)
      | false =>
          rw [minimaxM_min_eq a d hO hX hE]
          have hall : ∀ q ∈ p :: ps,
              -10 + d ≤ minimaxM a (setCell b q.1 q.2 'X') (d + 1) true := by
            intro q hq
            have hcq := hchild q hq 'X' (by decide)
            have := ih (setCell b q.1 q.2 'X') (d + 1) true (by omega)
              (by rw [hcq]; omega)
            omega
          refine foldl_min_ge (hall p (List.mem_cons_self _ _)) ?_
          intro x hx
          obtain ⟨q, hq, rfl⟩ := List.mem_map.mp hx
          exact hall q (List.mem_cons_of_mem p hq)

theorem minimaxM_le : ∀ (f : Nat) (b : Board) (d : Int) (m : Bool),
    eCount b ≤ f → d + (eCount b : Int) ≤ 10 → minimaxM f b d m ≤ 10 - d := by
  intro f
  induction f with
  | zero =>
      intro b d m h1 hd
      have he : eCount b = 0 := Nat.le_zero.mp h1
      rw [he] at hd
      by_cases hO : check_winner b = some 'O'
      · rw [minimaxM_of_winner_O hO]
      by_cases hX : check_winner b = some 'X'
      · rw [minimaxM_of_winner_X hX]; omega
      have hful : is_board_full b = true := by
        rw [is_board_full_iff]
        exact List.length_eq_zero.mp he
      rw [minimaxM_of_full hO hX hful]; omega
  | succ a ih =>
      intro b d m h1 hd
      by_cases hO : check_winner b = some 'O'
      · rw [minimaxM_of_winner_O hO]
      by_cases hX : check_winner b = some 'X'
      · rw [minimaxM_of_winner_X hX]; omega
      by_cases hful : is_board_full b = true
      · rw [minimaxM_of_full hO hX hful]
        have he : eCount b = 0 := by
          unfold eCount
          rw [is_board_full_iff.mp hful]
          rfl
        rw [he] at hd
        omega
      have hne : get_empty_cells b ≠ [] :=
        is_board_full_false_iff.mp (is_board_full_false hful)
      obtain ⟨p, ps, hE⟩ := List.exists_cons_of_ne_nil hne
      have he1 : 1 ≤ eCount b := one_le_eCount hE
      have hchild : ∀ q ∈ p :: ps, ∀ s : Char, s ≠ ' ' →
          eCount (setCell b q.1 q.2 s) = eCount b - 1 := by
        intro q hq s hs
        exact eCount_setCell (mem_get_empty_cells.mp (by rw [hE]; exact hq)) hs
      cases m with
      | true =>
          rw [minimaxM_max_eq a d hO hX hE]
          have hall : ∀ q ∈ p :: ps,
              minimaxM a (setCell b q.1 q.2 'O') (d + 1) false ≤ 10 - d := by
            intro q hq
            have hcq := hchild q hq 'O' (by decide)
            have := ih (setCell b q.1 q.2 'O') (d + 1) false (by omega)
              (by rw [hcq]; omega)
            omega
          refine foldl_max_le (hall p (List.mem_cons_self _ _)) ?_
          intro x hx
          obtain ⟨q, hq, rfl⟩ := List.mem_map.mp hx
          exact hall q (List.mem_cons_of_mem p hq)
      | false =>
          rw [minimaxM_min_eq a d hO hX hE]
          have hp := hchild p (List.mem_cons_self _ _) 'X' (by decide)
          have hv : minimaxM a (setCell b p.1 p.2 'X') (d + 1) true ≤ 10 - (d + 1) :=
            ih _ _ _ (by omega) (by rw [hp]; omega)
          exact le_trans (foldl_min_le_seed _ _) (by omega)

/-- On a board with no completed line, every continuation is at least one
ply away, so the score cannot be the immediate-loss score `-10 + d`. -/
theorem minimaxM_ge_of_no_winner (f : Nat) (b : Board) (d : Int) (m : Bool)
    (hb : check_winner b = none) (hf : eCount b ≤ f)
    (hd : d + (eCount b : Int) ≤ 9) : -9 + d ≤ minimaxM f b d m := by
  have hO : check_winner b ≠ some 'O' := by rw [hb]; decide
  have hX : check_winner b ≠ some 'X' := by rw [hb]; decide
  by_cases hful : is_board_full b = true
  · rw [minimaxM_of_full hO hX hful]
    have he : eCount b = 0 := by
      unfold eCount
      rw [is_board_full_iff.mp hful]
      rfl
    rw [he] at hd
    omega
  have hne : get_empty_cells b ≠ [] :=
    is_board_full_false_iff.mp (is_board_full_false hful)
  obtain ⟨p, ps, hE⟩ := List.exists_cons_of_ne_nil hne
  have he1 : 1 ≤ eCount b := one_le_eCount hE
  obtain ⟨a, rfl⟩ : ∃ a, f = a + 1 := ⟨f - 1, by omega⟩
  have hchild : ∀ q ∈ p :: ps, ∀ s : Char, s ≠ ' ' →
      eCount (setCell b q.1 q.2 s) = eCount b - 1 := by
    intro q hq s hs
    exact eCount_setCell (mem_get_empty_cells.mp (by rw [hE]; exact hq)) hs
  cases m with
  | true =>
      rw [minimaxM_max_eq a d hO hX hE]
      have hp := hchild p (List.mem_cons_self _ _) 'O' (by decide)
      have hv : -10 + (d + 1) ≤ minimaxM a (setCell b p.1 p.2 'O') (d + 1) false :=
        minimaxM_ge a _ _ _ (by omega) (by rw [hp]; omega)
      exact le_trans (by omega) (le_foldl_max _ _ _ hv)
  | false =>
      rw [minimaxM_min_eq a d hO hX hE]
      have hall : ∀ q ∈ p :: ps,
          -9 + d ≤ minimaxM a (setCell b q.1 q.2 'X') (d + 1) true := by
        intro q hq
        have hcq := hchild q hq 'X' (by decide)
        have := minimaxM_ge a (setCell b q.1 q.2 'X') (d + 1) true (by omega)
          (by rw [hcq]; omega)
        omega
      refine foldl_min_ge (hall p (List.mem_cons_self _ _)) ?_
      intro x hx
      obtain ⟨q, hq, rfl⟩ := List.mem_map.mp hx
      exact hall q (List.mem_cons_of_mem p hq)

/-- Dual: on a board with no completed line the score cannot be the
immediate-win score `10 - d`. -/
theorem minimaxM_le_of_no_winner (f : Nat) (b : Board) (d : Int) (m : Bool)
    (hb : check_winner b = none) (hf : eCount b ≤ f)
    (hd : d + (eCount b : Int) ≤ 9) : minimaxM f b d m ≤ 9 - d := by
  have hO : check_winner b ≠ some 'O' := by rw [hb]; decide
  have hX : check_winner b ≠ some 'X' := by rw [hb]; decide
  by_cases hful : is_board_full b = true
  · rw [minimaxM_of_full hO hX hful]
    have he : eCount b = 0 := by
      unfold eCount
      rw [is_board_full_iff.mp hful]
      rfl
    rw [he] at hd
    omega
  have hne : get_empty_cells b ≠ [] :=
    is_board_full_false_iff.mp (is_board_full_false hful)
  obtain ⟨p, ps, hE⟩ := List.exists_cons_of_ne_nil hne
  have he1 : 1 ≤ eCount b := one_le_eCount hE
  obtain ⟨a, rfl⟩ : ∃ a, f = a + 1 := ⟨f - 1, by omega⟩
  have hchild : ∀ q ∈ p :: ps, ∀ s : Char, s ≠ ' ' →
      eCount (setCell b q.1 q.2 s) = eCount b - 1 := by
    intro q hq s hs
    exact eCount_setCell (mem_get_empty_cells.mp (by rw [hE]; exact hq)) hs
  cases m with
  | true =>
      rw [minimaxM_max_eq a d hO hX hE]
      have hall : ∀ q ∈ p :: ps,
          minimaxM a (setCell b q.1 q.2 'O') (d + 1) false ≤ 9 - d := by
        intro q hq
        have hcq := hchild q hq 'O' (by decide)
        have := minimaxM_le a (setCell b q.1 q.2 'O') (d + 1) false (by omega)
          (by rw [hcq]; omega)
        omega
      refine foldl_max_le (hall p (List.mem_cons_self _ _)) ?_
      intro x hx
      obtain ⟨q, hq, rfl⟩ := List.mem_map.mp hx
      exact hall q (List.mem_cons_of_mem p hq)
  | false =>
      rw [minimaxM_min_eq a d hO hX hE]
      have hp := hchild p (List.mem_cons_self _ _) 'X' (by decide)
      have hv : minimaxM a (setCell b p.1 p.2 'X') (d + 1) true ≤ 10 - (d + 1) :=
        minimaxM_le a _ _ _ (by omega) (by rw [hp]; omega)
      exact le_trans (foldl_min_le_seed _ _) (by omega)

/-- With the human to move on a board where some cell completes a human
line, the minimising side can cash the win one ply down. -/
theorem minimaxM_le_of_X_threat (f : Nat) (b : Board) (d : Int) {q : Cell}
    (hb : check_winner b = none) (hq : completesLine b 'X' q)
    (hf : eCount b ≤ f) : minimaxM f b d false ≤ -10 + (d + 1) := by
  have hO : check_winner b ≠ some 'O' := by rw [hb]; decide
  have hX : check_winner b ≠ some 'X' := by rw [hb]; decide
  have hqe : b q.1 q.2 = ' ' := (completesLine_def.mp hq).1
  have hqmem : q ∈ get_empty_cells b := mem_get_empty_cells.mpr hqe
  have hne : get_empty_cells b ≠ [] := fun h => by rw [h] at hqmem; cases hqmem
  obtain ⟨p, ps, hE⟩ := List.exists_cons_of_ne_nil hne
  have he1 : 1 ≤ eCount b := one_le_eCount hE
  obtain ⟨a, rfl⟩ : ∃ a, f = a + 1 := ⟨f - 1, by omega⟩
  rw [minimaxM_min_eq a d hO hX hE]
  have hwin : check_winner (setCell b q.1 q.2 'X') = some 'X' :=
    check_winner_setCell_some hb (by decide) (completesLine_def.mp hq).2
  have hqv : minimaxM a (setCell b q.1 q.2 'X') (d + 1) true = -10 + (d + 1) :=
    minimaxM_of_winner_X hwin
  rw [hE] at hqmem
  rcases List.mem_cons.mp hqmem with rfl | hq'
  · exact le_trans (foldl_min_le_seed _ _) (le_of_eq hqv)
  · have hmem : minimaxM a (setCell b q.1 q.2 'X') (d + 1) true ∈
        (ps.map fun r => minimaxM a (setCell b r.1 r.2 'X') (d + 1) true) :=
      List.mem_map_of_mem _ hq'
    exact le_trans (foldl_min_le_of_mem hmem) (le_of_eq hqv)

/-! ## Characterisation of the tied best-moves list -/

theorem runMax_nil (b : Board) (m : Int) : runMax b m [] = m := rfl

theorem runMax_cons (b : Board) (m : Int) (p : Cell) (t : List Cell) :
    runMax b m (p :: t) = runMax b (max m (topVal b p)) t := by
  simp [runMax]

theorem runMax_ge (b : Board) (m : Int) (t : List Cell) : m ≤ runMax b m t :=
  le_foldl_max m m _ (le_refl m)

theorem runMax_ge_of_mem {b : Board} {m : Int} {t : List Cell} {q : Cell}
    (hq : q ∈ t) : topVal b q ≤ runMax b m t :=
  le_foldl_max_of_mem (List.mem_map_of_mem _ hq)

theorem runMax_attained (b : Board) (m : Int) (t : List Cell) :
    runMax b m t = m ∨ ∃ q ∈ t, runMax b m t = topVal b q := by
  have h := foldl_max_mem m (t.map (topVal b))
  rcases List.mem_cons.mp h with h' | h'
  · exact Or.inl h'
  · obtain ⟨q, hq, hv⟩ := List.mem_map.mp h'
    exact Or.inr ⟨q, hq, hv.symm⟩

theorem bestPair_eq_filter (b : Board) :
    bestPair b = (get_empty_cells b).foldl (bestCore b) (none, []) := by
  unfold bestPair
  rw [show bestStep b =
      (fun acc p => if b p.1 p.2 = ' ' then bestCore b acc p else acc) from rfl]
  exact foldl_guard (fun p : Cell => b p.1 p.2 = ' ') (bestCore b) allCells (none, [])

theorem bestCore_foldl_some (b : Board) :
    ∀ (t : List Cell) (m : Int) (ms : List Cell),
      t.foldl (bestCore b) (some m, ms) =
        (some (runMax b m t),
         (if runMax b m t = m then ms else []) ++
           t.filter (fun q => decide (topVal b q = runMax b m t))) := by
  intro t
  induction t with
  | nil => intro m ms; simp [runMax_nil]
  | cons p t ih =>
      intro m ms
      rw [List.foldl_cons]
      rcases lt_trichotomy (topVal b p) m with hlt | heq | hgt
      · have hstep : bestCore b (some m, ms) p = (some m, ms) := by
          simp only [bestCore]
          rw [if_neg (by omega), if_neg (by omega)]
        rw [hstep, ih m ms, runMax_cons, max_eq_left (le_of_lt hlt)]
        have hnp : ¬ (topVal b p = runMax b m t) := by
          have := runMax_ge b m t
          omega
        rw [List.filter_cons_of_neg (by simpa using hnp)]
      · have hstep : bestCore b (some m, ms) p = (some m, ms ++ [p]) := by
          simp only [bestCore]
          rw [if_neg (by omega), if_pos heq]
        rw [hstep, ih m (ms ++ [p]), runMax_cons, heq, max_self]
        by_cases hMm : runMax b m t = m
        · rw [if_pos hMm, if_pos hMm,
            List.filter_cons_of_pos (by simp [heq, hMm]), List.append_assoc]
          rfl
        · rw [if_neg hMm, if_neg hMm,
            List.filter_cons_of_neg (by simp [heq]; exact fun h => hMm h.symm)]
      · have hstep : bestCore b (some m, ms) p = (some (topVal b p), [p]) := by
          simp only [bestCore]
          rw [if_pos hgt]
        rw [hstep, ih (topVal b p) [p], runMax_cons, max_eq_right (le_of_lt hgt)]
        have hMv : m < runMax b (topVal b p) t :=
          lt_of_lt_of_le hgt (runMax_ge b (topVal b p) t)
        rw [if_neg (by omega : ¬ runMax b (topVal b p) t = m)]
        by_cases hMp : runMax b (topVal b p) t = topVal b p
        · rw [if_pos hMp, List.filter_cons_of_pos (by simpa using hMp.symm)]
          simp
        · rw [if_neg hMp,
            List.filter_cons_of_neg (by simpa using fun h => hMp h.symm)]

theorem bestPair_nil {b : Board} (hE : get_empty_cells b = []) :
    bestPair b = (none, []) := by
  rw [bestPair_eq_filter, hE]
  rfl

theorem bestPair_cons {b : Board} {p : Cell} {ps : List Cell}
    (hE : get_empty_cells b = p :: ps) :
    bestPair b = (some (runMax b (topVal b p) ps),
      (p :: ps).filter
        (fun q => decide (topVal b q = runMax b (topVal b p) ps))) := by
  rw [bestPair_eq_filter, hE, List.foldl_cons]
  have hstep : bestCore b (none, []) p = (some (topVal b p), [p]) := by
    simp [bestCore]
  rw [hstep, bestCore_foldl_some b ps (topVal b p) [p]]
  by_cases hMp : runMax b (topVal b p) ps = topVal b p
  · rw [if_pos hMp, List.filter_cons_of_pos (by simpa using hMp.symm)]
    simp
  · rw [if_neg hMp, List.filter_cons_of_neg (by simpa using fun h => hMp h.symm)]
    simp

theorem best_moves_eq_filter {b : Board} {p : Cell} {ps : List Cell}
    (hE : get_empty_cells b = p :: ps) :
    best_moves b = (p :: ps).filter
      (fun q => decide (topVal b q = runMax b (topVal b p) ps)) := by
  unfold best_moves
  rw [bestPair_cons hE]

theorem best_moves_nil {b : Board} (hE : get_empty_cells b = []) :
    best_moves b = [] := by
  unfold best_moves
  rw [bestPair_nil hE]

theorem runMax_is_max {b : Board} {p : Cell} {ps : List Cell}
    (hE : get_empty_cells b = p :: ps) :
    (∀ r ∈ get_empty_cells b, topVal b r ≤ runMax b (topVal b p) ps) ∧
      ∃ r ∈ get_empty_cells b, runMax b (topVal b p) ps = topVal b r := by
  constructor
  · intro r hr
    rw [hE] at hr
    rcases List.mem_cons.mp hr with rfl | hr'
    · exact runMax_ge b _ ps
    · exact runMax_ge_of_mem hr'
  · rcases runMax_attained b (topVal b p) ps with h | ⟨q, hq, hv⟩
    · exact ⟨p, by rw [hE]; exact List.mem_cons_self _ _, h⟩
    · exact ⟨q, by rw [hE]; exact List.mem_cons_of_mem p hq, hv⟩

theorem mem_best_moves {b : Board} {q : Cell} :
    q ∈ best_moves b ↔
      q ∈ get_empty_cells b ∧
        ∀ r ∈ get_empty_cells b, topVal b r ≤ topVal b q := by
  cases hE : get_empty_cells b with
  | nil =>
      rw [best_moves_nil hE]
      simp
  | cons p ps =>
      rw [best_moves_eq_filter hE, List.mem_filter]
      obtain ⟨hub, r0, hr0, hat⟩ := runMax_is_max hE
      rw [hE] at hub hr0
      constructor
      · rintro ⟨hmem, hv⟩
        have hv' : topVal b q = runMax b (topVal b p) ps := by simpa using hv
        exact ⟨hmem, fun r hr => by rw [hv']; exact hub r hr⟩
      · rintro ⟨hmem, hge⟩
        refine ⟨hmem, ?_⟩
        have h1 : runMax b (topVal b p) ps ≤ topVal b q := by
          rw [hat]
          exact hge r0 hr0
        have h2 : topVal b q ≤ runMax b (topVal b p) ps := hub q hmem
        simp [le_antisymm h2 h1]

theorem best_moves_subset {b : Board} {q : Cell} (h : q ∈ best_moves b) :
    q ∈ get_empty_cells b := (mem_best_moves.mp h).1

theorem best_moves_ne_nil {b : Board} {p : Cell} {ps : List Cell}
    (hE : get_empty_cells b = p :: ps) : best_moves b ≠ [] := by
  obtain ⟨hub, r0, hr0, hat⟩ := runMax_is_max hE
  have : r0 ∈ best_moves b := by
    rw [mem_best_moves]
    refine ⟨hr0, ?_⟩
    intro r hr
    rw [← hat]
    exact hub r hr
  intro hnil
  rw [hnil] at this
  cases this

theorem choiceL_mem {l : List Cell} (hl : l ≠ []) (k : Nat) : choiceL l k ∈ l := by
  unfold choiceL
  have hlen : 0 < l.length := List.length_pos.mpr hl
  have hk : k % l.length < l.length := Nat.mod_lt k hlen
  rw [List.getD_eq_getElem l (0, 0) hk]
  exact List.getElem_mem hk

/-! ## Top-level score comparisons: winning, losing and blocking cells -/

theorem eCount_set_le_nine {b : Board} {p : Cell} {c : Char} :
    eCount (setCell b p.1 p.2 c) ≤ 9 := eCount_le_nine _

/-- Placing the computer's symbol on an immediately winning cell scores the
undiscounted win. -/
theorem topVal_of_O_win {b : Board} {p : Cell} (hb : check_winner b = none)
    (hw : completesLine b 'O' p) : topVal b p = 10 := by
  have hwin : check_winner (setCell b p.1 p.2 'O') = some 'O' :=
    check_winner_setCell_some hb (by decide) (completesLine_def.mp hw).2
  unfold topVal minimax
  rw [minimaxM_of_winner_O hwin]
  norm_num

/-- A non-winning placement scores strictly below the undiscounted win. -/
theorem topVal_le_of_not_O_win {b : Board} {p : Cell}
    (hb : check_winner b = none) (hp : b p.1 p.2 = ' ')
    (hw : ¬ completesLine b 'O' p) : topVal b p ≤ 9 := by
  have hnl : ¬ hasLine (setCell b p.1 p.2 'O') 'O' := fun h =>
    hw (completesLine_def.mpr ⟨hp, h⟩)
  have hb' : check_winner (setCell b p.1 p.2 'O') = none :=
    check_winner_setCell_none hb hnl
  have hec : eCount (setCell b p.1 p.2 'O') = eCount b - 1 :=
    eCount_setCell hp (by decide)
  have he9 := eCount_le_nine b
  have he1 : 1 ≤ eCount b := by
    have : p ∈ get_empty_cells b := mem_get_empty_cells.mpr hp
    unfold eCount
    exact List.length_pos.mpr fun hnil => by rw [hnil] at this; cases this
  unfold topVal minimax
  have := minimaxM_le_of_no_winner 9 (setCell b p.1 p.2 'O') 0 false hb'
    (by rw [hec]; omega) (by rw [hec]; omega)
  omega

/-- If the human still has an untouched winning cell `c` after the
computer plays elsewhere, the move scores the immediate loss `-9`. -/
theorem topVal_le_of_X_threat_other {b : Board} {p c : Cell}
    (hb : check_winner b = none) (hc : completesLine b 'X' c)
    (hp : b p.1 p.2 = ' ') (hne : p ≠ c)
    (hwO : ¬ completesLine b 'O' p) : topVal b p ≤ -9 := by
  have hnl : ¬ hasLine (setCell b p.1 p.2 'O') 'O' := fun h =>
    hwO (completesLine_def.mpr ⟨hp, h⟩)
  have hb' : check_winner (setCell b p.1 p.2 'O') = none :=
    check_winner_setCell_none hb hnl
  have hc' : completesLine (setCell b p.1 p.2 'O') 'X' c :=
    completesLine_preserve hc hp hne
  have hec : eCount (setCell b p.1 p.2 'O') = eCount b - 1 :=
    eCount_setCell hp (by decide)
  have he9 := eCount_le_nine b
  unfold topVal minimax
  have := minimaxM_le_of_X_threat 9 (setCell b p.1 p.2 'O') 0 hb' hc'
    (by rw [hec]; omega)
  omega

/-- Blocking the human's unique winning cell leaves a position where the
human cannot win on the next ply, so the score is at least `-8`. -/
theorem topVal_ge_of_block {b : Board} {c : Cell} (hb : check_winner b = none)
    (hc : completesLine b 'X' c) (huniq : ∀ q, completesLine b 'X' q → q = c)
    (hwO : ¬ completesLine b 'O' c) : -8 ≤ topVal b c := by
  have hce : b c.1 c.2 = ' ' := (completesLine_def.mp hc).1
  have hnl : ¬ hasLine (setCell b c.1 c.2 'O') 'O' := fun h =>
    hwO (completesLine_def.mpr ⟨hce, h⟩)
  have hb1 : check_winner (setCell b c.1 c.2 'O') = none :=
    check_winner_setCell_none hb hnl
  have hnoX : ∀ q, ¬ completesLine (setCell b c.1 c.2 'O') 'X' q := by
    intro q hq
    have hq0 : completesLine b 'X' q := completesLine_reflect hce hq
    have hqc := huniq q hq0
    subst hqc
    have hqe : setCell b q.1 q.2 'O' q.1 q.2 = ' ' := (completesLine_def.mp hq).1
    rw [setCell_self] at hqe
    exact absurd hqe (by decide)
  have hec1 : eCount (setCell b c.1 c.2 'O') = eCount b - 1 :=
    eCount_setCell hce (by decide)
  have he9 := eCount_le_nine b
  have he1 : 1 ≤ eCount b := by
    have : c ∈ get_empty_cells b := mem_get_empty_cells.mpr hce
    unfold eCount
    exact List.length_pos.mpr fun hnil => by rw [hnil] at this; cases this
  unfold topVal minimax
  have hO1 : check_winner (setCell b c.1 c.2 'O') ≠ some 'O' := by
    rw [hb1]; decide
  have hX1 : check_winner (setCell b c.1 c.2 'O') ≠ some 'X' := by
    rw [hb1]; decide
  by_cases hful : is_board_full (setCell b c.1 c.2 'O') = true
  · rw [minimaxM_of_full hO1 hX1 hful]
    omega
  have hne : get_empty_cells (setCell b c.1 c.2 'O') ≠ [] :=
    is_board_full_false_iff.mp (is_board_full_false hful)
  obtain ⟨p1, ps1, hE1⟩ := List.exists_cons_of_ne_nil hne
  rw [show (9 : Nat) = 8 + 1 from rfl, minimaxM_min_eq 8 0 hO1 hX1 hE1]
  have hchild : ∀ q ∈ p1 :: ps1,
      -8 ≤ minimaxM 8 (setCell (setCell b c.1 c.2 'O') q.1 q.2 'X') (0 + 1) true := by
    intro q hq
    have hqmem : q ∈ get_empty_cells (setCell b c.1 c.2 'O') := by
      rw [hE1]; exact hq
    have hqe : setCell b c.1 c.2 'O' q.1 q.2 = ' ' := mem_get_empty_cells.mp hqmem
    have hnlX : ¬ hasLine (setCell (setCell b c.1 c.2 'O') q.1 q.2 'X') 'X' :=
      fun h => hnoX q (completesLine_def.mpr ⟨hqe, h⟩)
    have hb2 : check_winner (setCell (setCell b c.1 c.2 'O') q.1 q.2 'X') = none :=
      check_winner_setCell_none hb1 hnlX
    have hec2 : eCount (setCell (setCell b c.1 c.2 'O') q.1 q.2 'X') =
        eCount (setCell b c.1 c.2 'O') - 1 := eCount_setCell hqe (by decide)
    have he11 : 1 ≤ eCount (setCell b c.1 c.2 'O') := one_le_eCount hE1
    have := minimaxM_ge_of_no_winner 8
      (setCell (setCell b c.1 c.2 'O') q.1 q.2 'X') (0 + 1) true hb2
      (by rw [hec2, hec1]; omega) (by rw [hec2, hec1]; omega)
    omega
  refine le_trans (by omega) (foldl_min_ge (hchild p1 (List.mem_cons_self _ _)) ?_)
  intro x hx
  obtain ⟨q, hq, rfl⟩ := List.mem_map.mp hx
  exact hchild q (List.mem_cons_of_mem p1 hq)

/-- When the computer has an immediately winning cell, every tied best
move is such a cell. -/
theorem best_moves_O_win {b : Board} {w : Cell} (hb : check_winner b = none)
    (hw : completesLine b 'O' w) :
    ∀ q ∈ best_moves b, completesLine b 'O' q := by
  intro q hq
  obtain ⟨hqe, hmax⟩ := mem_best_moves.mp hq
  by_contra hnq
  have h10 : topVal b w = 10 := topVal_of_O_win hb hw
  have hle : topVal b q ≤ 9 :=
    topVal_le_of_not_O_win hb (mem_get_empty_cells.mp hqe) hnq
  have hwmem : w ∈ get_empty_cells b :=
    mem_get_empty_cells.mpr (completesLine_def.mp hw).1
  have := hmax w hwmem
  omega

/-- When the computer has no immediate win and the human threatens exactly
one cell, the blocking cell is the unique tied best move. -/
theorem best_moves_block {b : Board} {c : Cell} (hb : check_winner b = none)
    (hc : completesLine b 'X' c) (huniq : ∀ q, completesLine b 'X' q → q = c)
    (hnoO : ∀ q, ¬ completesLine b 'O' q) :
    ∀ q ∈ best_moves b, q = c := by
  intro q hq
  obtain ⟨hqe, hmax⟩ := mem_best_moves.mp hq
  by_contra hne
  have hblock : -8 ≤ topVal b c := topVal_ge_of_block hb hc huniq (hnoO c)
  have hle : topVal b q ≤ -9 :=
    topVal_le_of_X_threat_other hb hc (mem_get_empty_cells.mp hqe) hne (hnoO q)
  have hcmem : c ∈ get_empty_cells b :=
    mem_get_empty_cells.mpr (completesLine_def.mp hc).1
  have := hmax c hcmem
  omega

theorem minimaxS_of_winner_O {fuel : Nat} {b : Board} {d : Int} {m : Bool}
    (h : check_winner b = some 'O') : minimaxS fuel b d m = (10 - d, b) := by
  unfold minimaxS evaluate
  rw [if_pos h]
  norm_num

theorem minimaxS_of_winner_X {fuel : Nat} {b : Board} {d : Int} {m : Bool}
    (h : check_winner b = some 'X') : minimaxS fuel b d m = (-10 + d, b) := by
  have hO : check_winner b ≠ some 'O' := by rw [h]; decide
  unfold minimaxS evaluate
  rw [if_neg hO, if_pos h]
  norm_num

theorem minimaxS_of_full {fuel : Nat} {b : Board} {d : Int} {m : Bool}
    (hO : check_winner b ≠ some 'O') (hX : check_winner b ≠ some 'X')
    (hf : is_board_full b = true) : minimaxS fuel b d m = (0, b) := by
  unfold minimaxS
  rw [evaluate_zero hO hX]
  norm_num [hf]

theorem minimaxM_zero_eq {b : Board} {d : Int} {m : Bool}
    (hO : check_winner b ≠ some 'O') (hX : check_winner b ≠ some 'X')
    (hful : is_board_full b = false) : minimaxM 0 b d m = 0 := by
  rw [minimaxM, evaluate_zero hO hX]
  norm_num [hful]

theorem minimaxS_zero_eq {b : Board} {d : Int} {m : Bool}
    (hO : check_winner b ≠ some 'O') (hX : check_winner b ≠ some 'X')
    (hful : is_board_full b = false) : minimaxS 0 b d m = (0, b) := by
  rw [minimaxS, evaluate_zero hO hX]
  norm_num [hful]

set_option maxHeartbeats 1000000 in
theorem minimaxS_succ_max (f : Nat) (b : Board) (d : Int)
    (hO : check_winner b ≠ some 'O') (hX : check_winner b ≠ some 'X')
    (hful : is_board_full b = false) :
    minimaxS (f + 1) b d true =
      ((allCells.foldl (stepMaxS f d) (none, b)).1.getD 0,
        (allCells.foldl (stepMaxS f d) (none, b)).2) := by
  rw [minimaxS, evaluate_zero hO hX]
  norm_num [hful]
  have hfun : (fun (acc : Option Int × Board) (p : Cell) =>
      if acc.2 p.1 p.2 = ' ' then
        (optMax acc.1 (minimaxS f (setCell acc.2 p.1 p.2 'O') (d + 1) false).1,
          setCell (minimaxS f (setCell acc.2 p.1 p.2 'O') (d + 1) false).2 p.1 p.2 ' ')
      else acc) = stepMaxS f d := by
    funext acc p
    rfl
  rw [hfun]
  exact ⟨rfl, rfl⟩

set_option maxHeartbeats 1000000 in
theorem minimaxS_succ_min (f : Nat) (b : Board) (d : Int)
    (hO : check_winner b ≠ some 'O') (hX : check_winner b ≠ some 'X')
    (hful : is_board_full b = false) :
    minimaxS (f + 1) b d false =
      ((allCells.foldl (stepMinS f d) (none, b)).1.getD 0,
        (allCells.foldl (stepMinS f d) (none, b)).2) := by
  rw [minimaxS, evaluate_zero hO hX]
  norm_num [hful]
  have hfun : (fun (acc : Option Int × Board) (p : Cell) =>
      if acc.2 p.1 p.2 = ' ' then
        (optMin acc.1 (minimaxS f (setCell acc.2 p.1 p.2 'X') (d + 1) true).1,
          setCell (minimaxS f (setCell acc.2 p.1 p.2 'X') (d + 1) true).2 p.1 p.2 ' ')
      else acc) = stepMinS f d := by
    funext acc p
    rfl
  rw [hfun]
  exact ⟨rfl, rfl⟩

theorem minimaxM_succ_max_raw (f : Nat) (b : Board) (d : Int)
    (hO : check_winner b ≠ some 'O') (hX : check_winner b ≠ some 'X')
    (hful : is_board_full b = false) :
    minimaxM (f + 1) b d true =
      (allCells.foldl (fun acc p =>
        if b p.1 p.2 = ' ' then
          optMax acc (minimaxM f (setCell b p.1 p.2 'O') (d + 1) false)
        else acc) none).getD 0 := by
  rw [minimaxM, evaluate_zero hO hX]
  norm_num [hful]

theorem minimaxM_succ_min_raw (f : Nat) (b : Board) (d : Int)
    (hO : check_winner b ≠ some 'O') (hX : check_winner b ≠ some 'X')
    (hful : is_board_full b = false) :
    minimaxM (f + 1) b d false =
      (allCells.foldl (fun acc p =>
        if b p.1 p.2 = ' ' then
          optMin acc (minimaxM f (setCell b p.1 p.2 'X') (d + 1) true)
        else acc) none).getD 0 := by
  rw [minimaxM, evaluate_zero hO hX]
  norm_num [hful]

theorem foldl_stepMaxS (f : Nat) (d : Int) (b : Board)
    (ih : ∀ (b' : Board) (d' : Int) (m' : Bool),
      minimaxS f b' d' m' = (minimaxM f b' d' m', b')) :
    ∀ (cells : List Cell) (o : Option Int),
      cells.foldl (stepMaxS f d) (o, b) =
        (cells.foldl (fun acc p =>
          if b p.1 p.2 = ' ' then
            optMax acc (minimaxM f (setCell b p.1 p.2 'O') (d + 1) false)
          else acc) o, b) := by
  intro cells
  induction cells with
  | nil => intro o; rfl
  | cons p t iht =>
      intro o
      simp only [List.foldl_cons]
      by_cases hp : b p.1 p.2 = ' '
      · have hstep : stepMaxS f d (o, b) p =
            (optMax o (minimaxM f (setCell b p.1 p.2 'O') (d + 1) false), b) := by
          unfold stepMaxS
          rw [if_pos hp]
          show (optMax o (minimaxS f (setCell b p.1 p.2 'O') (d + 1) false).1,
            setCell (minimaxS f (setCell b p.1 p.2 'O') (d + 1) false).2
              p.1 p.2 ' ') = _
          rw [ih (setCell b p.1 p.2 'O') (d + 1) false]
          show (optMax o (minimaxM f (setCell b p.1 p.2 'O') (d + 1) false),
            setCell (setCell b p.1 p.2 'O') p.1 p.2 ' ') = _
          rw [setCell_restore b p 'O' hp]
        rw [hstep, if_pos hp, iht]
      · have hstep : stepMaxS f d (o, b) p = (o, b) := by
          unfold stepMaxS
          rw [if_neg hp]
        rw [hstep, if_neg hp, iht]

theorem foldl_stepMinS (f : Nat) (d : Int) (b : Board)
    (ih : ∀ (b' : Board) (d' : Int) (m' : Bool),
      minimaxS f b' d' m' = (minimaxM f b' d' m', b')) :
    ∀ (cells : List Cell) (o : Option Int),
      cells.foldl (stepMinS f d) (o, b) =
        (cells.foldl (fun acc p =>
          if b p.1 p.2 = ' ' then
            optMin acc (minimaxM f (setCell b p.1 p.2 'X') (d + 1) true)
          else acc) o, b) := by
  intro cells
  induction cells with
  | nil => intro o; rfl
  | cons p t iht =>
      intro o
      simp only [List.foldl_cons]
      by_cases hp : b p.1 p.2 = ' '
      · have hstep : stepMinS f d (o, b) p =
            (optMin o (minimaxM f (setCell b p.1 p.2 'X') (d + 1) true), b) := by
          unfold stepMinS
          rw [if_pos hp]
          show (optMin o (minimaxS f (setCell b p.1 p.2 'X') (d + 1) true).1,
            setCell (minimaxS f (setCell b p.1 p.2 'X') (d + 1) true).2
              p.1 p.2 ' ') = _
          rw [ih (setCell b p.1 p.2 'X') (d + 1) true]
          show (optMin o (minimaxM f (setCell b p.1 p.2 'X') (d + 1) true),
            setCell (setCell b p.1 p.2 'X') p.1 p.2 ' ') = _
          rw [setCell_restore b p 'X' hp]
        rw [hstep, if_pos hp, iht]
      · have hstep : stepMinS f d (o, b) p = (o, b) := by
          unfold stepMinS
          rw [if_neg hp]
        rw [hstep, if_neg hp, iht]

/-- The stateful search agrees with the functional one and restores its
board: every tentative placement is undone before it returns. -/
theorem minimaxS_spec : ∀ (fuel : Nat) (b : Board) (d : Int) (m : Bool),
    minimaxS fuel b d m = (minimaxM fuel b d m, b) := by
  intro fuel
  induction fuel with
  | zero =>
      intro b d m
      by_cases hO : check_winner b = some 'O'
      · rw [minimaxS_of_winner_O hO, minimaxM_of_winner_O hO]
      by_cases hX : check_winner b = some 'X'
      · rw [minimaxS_of_winner_X hX, minimaxM_of_winner_X hX]
      by_cases hful : is_board_full b = true
      · rw [minimaxS_of_full hO hX hful, minimaxM_of_full hO hX hful]
      rw [minimaxS_zero_eq hO hX (is_board_full_false hful),
        minimaxM_zero_eq hO hX (is_board_full_false hful)]
  | succ f ih =>
      intro b d m
      by_cases hO : check_winner b = some 'O'
      · rw [minimaxS_of_winner_O hO, minimaxM_of_winner_O hO]
      by_cases hX : check_winner b = some 'X'
      · rw [minimaxS_of_winner_X hX, minimaxM_of_winner_X hX]
      by_cases hful : is_board_full b = true
      · rw [minimaxS_of_full hO hX hful, minimaxM_of_full hO hX hful]
      have hful' : is_board_full b = false := is_board_full_false hful
      cases m with
      | true =>
          rw [minimaxS_succ_max f b d hO hX hful',
            minimaxM_succ_max_raw f b d hO hX hful',
            foldl_stepMaxS f d b ih allCells none]
      | false =>
          rw [minimaxS_succ_min f b d hO hX hful',
            minimaxM_succ_min_raw f b d hO hX hful',
            foldl_stepMinS f d b ih allCells none]

theorem bestCore_eq_valCore (b : Board) (acc : Option Int × List Cell) (p : Cell) :
    bestCore b acc p = valCore acc p (topVal b p) := by
  rcases acc with ⟨o, ms⟩
  cases o <;> rfl

/-- The stateful scoring loop computes `bestPair` and hands its board back
unchanged. -/
theorem bestLoopS_spec (b : Board) : bestLoopS b = (bestPair b, b) := by
  unfold bestLoopS bestPair
  have key : ∀ (cells : List Cell) (st : Option Int × List Cell),
      cells.foldl (fun acc p =>
        if acc.2 p.1 p.2 = ' ' then
          let r := minimaxS 9 (setCell acc.2 p.1 p.2 'O') 0 false
          (valCore acc.1 p r.1, setCell r.2 p.1 p.2 ' ')
        else acc) (st, b) =
        (cells.foldl (bestStep b) st, b) := by
    intro cells
    induction cells with
    | nil => intro st; rfl
    | cons p t iht =>
        intro st
        simp only [List.foldl_cons]
        by_cases hp : b p.1 p.2 = ' '
        · have hstep : (if (st, b).2 p.1 p.2 = ' ' then
              let r := minimaxS 9 (setCell (st, b).2 p.1 p.2 'O') 0 false
              (valCore (st, b).1 p r.1, setCell r.2 p.1 p.2 ' ')
            else (st, b)) = (bestStep b st p, b) := by
            rw [if_pos hp]
            show (valCore st p (minimaxS 9 (setCell b p.1 p.2 'O') 0 false).1,
              setCell (minimaxS 9 (setCell b p.1 p.2 'O') 0 false).2
                p.1 p.2 ' ') = _
            rw [minimaxS_spec 9 (setCell b p.1 p.2 'O') 0 false]
            show (valCore st p (minimaxM 9 (setCell b p.1 p.2 'O') 0 false),
              setCell (setCell b p.1 p.2 'O') p.1 p.2 ' ') = _
            rw [setCell_restore b p 'O' hp]
            unfold bestStep
            rw [if_pos hp, bestCore_eq_valCore]
            rfl
          rw [hstep, iht]
        · have hstep : (if (st, b).2 p.1 p.2 = ' ' then
              let r := minimaxS 9 (setCell (st, b).2 p.1 p.2 'O') 0 false
              (valCore (st, b).1 p r.1, setCell r.2 p.1 p.2 ' ')
            else (st, b)) = (bestStep b st p, b) := by
            rw [if_neg hp]
            unfold bestStep
            rw [if_neg hp]
          rw [hstep, iht]
  exact key allCells (none, [])

theorem BTime.le_refl (b : BTime) : BTime.le b b := by
  cases b
  · trivial
  · exact Int.le_refl _

/-! ## Python list indexing -/

theorem pyIdx_coe (i : Fin 3) : pyIdx (i.val : Int) = some i := by
  unfold pyIdx
  rw [dif_pos ⟨Int.ofNat_nonneg _, by exact_mod_cast i.isLt⟩]
  congr 1

theorem pyIdx_wrap (i : Fin 3) : pyIdx ((i.val : Int) - 3) = some i := by
  unfold pyIdx
  have hi := i.isLt
  rw [dif_neg (by omega), dif_pos (by omega)]
  congr 1
  apply Fin.ext
  show ((i.val : Int) - 3 + 3).toNat = i.val
  omega

theorem pyIdx_none {i : Int} (h : ¬ (-3 ≤ i ∧ i < 3)) : pyIdx i = none := by
  unfold pyIdx
  rw [dif_neg (by omega), dif_neg (by omega)]

theorem pyIdx_isSome {i : Int} (h : -3 ≤ i ∧ i < 3) :
    ∃ j : Fin 3, pyIdx i = some j := by
  unfold pyIdx
  by_cases h1 : 0 ≤ i ∧ i < 3
  · rw [dif_pos h1]
    exact ⟨_, rfl⟩
  · rw [dif_neg h1, dif_pos (by omega)]
    exact ⟨_, rfl⟩

/-! ## Unfolding `find_best_move` per difficulty -/

theorem find_best_move_easy_eq (b : Board) (coin : Bool) (k : Nat) :
    find_best_move .EASY b coin k =
      if (get_empty_cells b).isEmpty then (-1, -1)
      else mv (choiceL (get_empty_cells b) k) := by
  unfold find_best_move
  simp

theorem find_best_move_medium_eq (b : Board) (coin : Bool) (k : Nat) :
    find_best_move .MEDIUM b coin k =
      if coin && !(get_empty_cells b).isEmpty then
        mv (choiceL (get_empty_cells b) k)
      else if (best_moves b).isEmpty then (-1, -1)
      else mv (choiceL (best_moves b) k) := by
  unfold find_best_move
  simp

theorem find_best_move_hard_eq (b : Board) (coin : Bool) (k : Nat) :
    find_best_move .HARD b coin k =
      if (best_moves b).isEmpty then (-1, -1)
      else mv (choiceL (best_moves b) k) := by
  unfold find_best_move
  simp

theorem mv_ne_sentinel (p : Cell) : mv p ≠ (-1, -1) := by
  unfold mv
  intro h
  have h1 := congrArg Prod.fst h
  simp only [Prod.fst] at h1
  omega

/-! ## The claims -/

/-- C6.  For every board and every difficulty, `find_best_move` returns
the sentinel `(-1, -1)` exactly when the board has no empty cells, and on
a board with an empty cell it returns an empty cell of that board. -/
theorem C6_find_best_move_sentinel (diff : Difficulty) (b : Board)
    (coin : Bool) (k : Nat) :
    (find_best_move diff b coin k = (-1, -1) ↔ get_empty_cells b = [])
  ∧ (get_empty_cells b ≠ [] →
      ∃ p ∈ get_empty_cells b, find_best_move diff b coin k = mv p) := by
  by_cases hE : get_empty_cells b = []
  · have hfind : find_best_move diff b coin k = (-1, -1) := by
      have hbm : best_moves b = [] := best_moves_nil hE
      cases diff
      · rw [find_best_move_easy_eq]
        simp [hE]
      · rw [find_best_move_medium_eq]
        simp [hE, hbm]
      · rw [find_best_move_hard_eq]
        simp [hbm]
    exact ⟨⟨fun _ => hE, fun _ => hfind⟩, fun h => absurd hE h⟩
  · have hmain : ∃ q ∈ get_empty_cells b,
        find_best_move diff b coin k = mv q := by
      obtain ⟨p, ps, hEc⟩ := List.exists_cons_of_ne_nil hE
      have hbm : best_moves b ≠ [] := best_moves_ne_nil hEc
      cases diff
      · refine ⟨choiceL (get_empty_cells b) k, choiceL_mem hE k, ?_⟩
        rw [find_best_move_easy_eq]
        simp [List.isEmpty_eq_false.mpr hE]
      · cases hc : coin
        · refine ⟨choiceL (best_moves b) k,
            best_moves_subset (choiceL_mem hbm k), ?_⟩
          rw [find_best_move_medium_eq]
          simp [List.isEmpty_eq_false.mpr hbm]
        · refine ⟨choiceL (get_empty_cells b) k, choiceL_mem hE k, ?_⟩
          rw [find_best_move_medium_eq]
          simp [List.isEmpty_eq_false.mpr hE]
      · refine ⟨choiceL (best_moves b) k,
          best_moves_subset (choiceL_mem hbm k), ?_⟩
        rw [find_best_move_hard_eq]
        simp [List.isEmpty_eq_false.mpr hbm]
    obtain ⟨q, hq, hfind⟩ := hmain
    refine ⟨⟨fun hs => ?_, fun h => absurd h hE⟩, fun _ => ⟨q, hq, hfind⟩⟩
    rw [hfind] at hs
    exact absurd hs (mv_ne_sentinel q)

/-- C2.  `minimax(board, depth, is_maximizing)` scores a board the winner
check gives to the computer as `10 - depth`, one it gives to the human as
`-10 + depth`, a full board with no winner as `0`, and otherwise returns
the maximum (maximising, placing `'O'`) or minimum (minimising, placing
`'X'`) of `minimax(board', depth + 1, not is_maximizing)` over every
empty cell. -/
theorem C2_minimax_cases (b : Board) (d : Int) (m : Bool) :
    (check_winner b = some 'O' → minimax b d m = 10 - d)
  ∧ (check_winner b = some 'X' → minimax b d m = -10 + d)
  ∧ (check_winner b = none → is_board_full b = true → minimax b d m = 0)
  ∧ (m = true → check_winner b ≠ some 'O' → check_winner b ≠ some 'X' →
      is_board_full b = false →
      minimax b d m ∈ (get_empty_cells b).map
          (fun p => minimax (setCell b p.1 p.2 'O') (d + 1) false)
      ∧ ∀ v ∈ (get_empty_cells b).map
          (fun p => minimax (setCell b p.1 p.2 'O') (d + 1) false),
          v ≤ minimax b d m)
  ∧ (m = false → check_winner b ≠ some 'O' → check_winner b ≠ some 'X' →
      is_board_full b = false →
      minimax b d m ∈ (get_empty_cells b).map
          (fun p => minimax (setCell b p.1 p.2 'X') (d + 1) true)
      ∧ ∀ v ∈ (get_empty_cells b).map
          (fun p => minimax (setCell b p.1 p.2 'X') (d + 1) true),
          minimax b d m ≤ v) := by
  refine ⟨fun h => minimaxM_of_winner_O h, fun h => minimaxM_of_winner_X h,
    fun hn hf => minimaxM_of_full (by rw [hn]; decide) (by rw [hn]; decide) hf,
    ?_, ?_⟩
  · rintro rfl hO hX hful
    obtain ⟨p, ps, hE⟩ := List.exists_cons_of_ne_nil (is_board_full_false_iff.mp hful)
    have hcong : ∀ q ∈ p :: ps,
        minimaxM 8 (setCell b q.1 q.2 'O') (d + 1) false =
          minimax (setCell b q.1 q.2 'O') (d + 1) false := by
      intro q hq
      have hqe : b q.1 q.2 = ' ' := mem_get_empty_cells.mp (by rw [hE]; exact hq)
      have hec := eCount_setCell hqe (show ('O' : Char) ≠ ' ' by decide)
      have h9 := eCount_le_nine b
      exact minimaxM_fuel_irrel 8 9 _ _ _ (by omega) (by omega)
    have hval : minimax b d true =
        (ps.map fun q => minimax (setCell b q.1 q.2 'O') (d + 1) false).foldl max
          (minimax (setCell b p.1 p.2 'O') (d + 1) false) := by
      rw [show minimax b d true = minimaxM (8 + 1) b d true from rfl,
        minimaxM_max_eq 8 d hO hX hE,
        List.map_congr_left fun q hq => hcong q (List.mem_cons_of_mem p hq),
        hcong p (List.mem_cons_self _ _)]
    rw [hval, hE, List.map_cons]
    constructor
    · exact foldl_max_mem _ _
    · intro v hv
      rcases List.mem_cons.mp hv with rfl | hv'
      · exact le_foldl_max _ _ _ (le_refl _)
      · exact le_foldl_max_of_mem hv'
  · rintro rfl hO hX hful
    obtain ⟨p, ps, hE⟩ := List.exists_cons_of_ne_nil (is_board_full_false_iff.mp hful)
    have hcong : ∀ q ∈ p :: ps,
        minimaxM 8 (setCell b q.1 q.2 'X') (d + 1) true =
          minimax (setCell b q.1 q.2 'X') (d + 1) true := by
      intro q hq
      have hqe : b q.1 q.2 = ' ' := mem_get_empty_cells.mp (by rw [hE]; exact hq)
      have hec := eCount_setCell hqe (show ('X' : Char) ≠ ' ' by decide)
      have h9 := eCount_le_nine b
      exact minimaxM_fuel_irrel 8 9 _ _ _ (by omega) (by omega)
    have hval : minimax b d false =
        (ps.map fun q => minimax (setCell b q.1 q.2 'X') (d + 1) true).foldl min
          (minimax (setCell b p.1 p.2 'X') (d + 1) true) := by
      rw [show minimax b d false = minimaxM (8 + 1) b d false from rfl,
        minimaxM_min_eq 8 d hO hX hE,
        List.map_congr_left fun q hq => hcong q (List.mem_cons_of_mem p hq),
        hcong p (List.mem_cons_self _ _)]
    rw [hval, hE, List.map_cons]
    constructor
    · exact foldl_min_mem _ _
    · intro v hv
      rcases List.mem_cons.mp hv with rfl | hv'
      · exact foldl_min_le_seed _ _
      · exact foldl_min_le_of_mem hv'

/-- C5.  `check_winner` returns the symbol of the first completed line in
the fixed scan order (rows, columns, main diagonal, anti-diagonal),
returns a symbol exactly when some line is uniformly occupied and
non-blank, and any symbol it returns owns such a line. -/
theorem C5_check_winner_spec (b : Board) :
    check_winner b = winnerSpec b
  ∧ ((∃ s, check_winner b = some s) ↔ ∃ s, s ≠ ' ' ∧ hasLine b s)
  ∧ (∀ s, check_winner b = some s → s ≠ ' ' ∧ hasLine b s) := by
  refine ⟨check_winner_eq_winnerSpec b, ⟨?_, ?_⟩, ?_⟩
  · rintro ⟨s, hs⟩
    obtain ⟨hne, l, hm, hli⟩ := check_winner_eq_some_sym hs
    exact ⟨s, hne, l, hm, hli⟩
  · rintro ⟨s, hne, l, hm, hli⟩
    have : (check_winner b).isSome :=
      check_winner_isSome_iff.mpr ⟨l, hm, lineIs_completeL hli hne⟩
    obtain ⟨t, ht⟩ := Option.isSome_iff_exists.mp this
    exact ⟨t, ht⟩
  · intro s hs
    obtain ⟨hne, l, hm, hli⟩ := check_winner_eq_some_sym hs
    exact ⟨hne, l, hm, hli⟩

/-- C5 witness: the three hypotheses-bearing conjuncts applied at the
malformed two-line board — the first-checked line (`X`'s row 0) wins. -/
theorem C5_check_winner_witness :
    check_winner bTwoLines = some 'X' ∧ hasLine bTwoLines 'O' ∧
      ('X' : Char) ≠ ' ' ∧ hasLine bTwoLines 'X' := by
  refine ⟨by decide, by decide, ?_⟩
  exact (C5_check_winner_spec bTwoLines).2.2 'X' (by decide)

/-- C3.  The tied best-moves list `find_best_move` collects is exactly the
empty cells whose top-level score equals the maximum over all empty cells
— every tied cell retained, in scan order — and on a non-full board the
Hard choice is a member of that best-set. -/
theorem C3_hard_best_set (b : Board) (coin : Bool) (k : Nat) :
    best_moves b = (get_empty_cells b).filter
        (fun q => decide (maxTop b = some (topVal b q)))
  ∧ (get_empty_cells b ≠ [] →
      ∃ q ∈ (get_empty_cells b).filter
          (fun q => decide (maxTop b = some (topVal b q))),
        find_best_move .HARD b coin k = mv q) := by
  have hfilter : best_moves b = (get_empty_cells b).filter
      (fun q => decide (maxTop b = some (topVal b q))) := by
    cases hE : get_empty_cells b with
    | nil =>
        rw [best_moves_nil hE]
        rfl
    | cons p ps =>
        rw [best_moves_eq_filter hE]
        refine List.filter_congr fun q hq => ?_
        have hmax : maxTop b = some (runMax b (topVal b p) ps) := by
          rw [maxTop, hE, List.map_cons, List.max?_cons']
          rfl
        rw [hmax]
        rcases Decidable.em (topVal b q = runMax b (topVal b p) ps) with h | h
        · rw [decide_eq_true h, decide_eq_true (congrArg some h.symm)]
        · rw [decide_eq_false h,
            decide_eq_false (fun hc => h (Option.some_inj.mp hc).symm)]
  refine ⟨hfilter, fun hE => ?_⟩
  obtain ⟨p, ps, hEc⟩ := List.exists_cons_of_ne_nil hE
  have hbm : best_moves b ≠ [] := best_moves_ne_nil hEc
  refine ⟨choiceL (best_moves b) k, ?_, ?_⟩
  · rw [← hfilter]
    exact choiceL_mem hbm k
  · rw [find_best_move_hard_eq]
    simp [List.isEmpty_eq_false.mpr hbm]

/-- C4 (amended).  On a board with no completed line where the human has
exactly one immediately winning cell `c`, Hard difficulty plays `c`
unless the computer itself has an immediately winning cell, in which case
it plays a winning cell (winning scores strictly dominate non-losing
scores in the evaluation). -/
theorem C4_hard_blocks_or_wins (b : Board) (coin : Bool) (k : Nat) (c : Cell)
    (hb : check_winner b = none) (hc : completesLine b 'X' c)
    (huniq : ∀ q, completesLine b 'X' q → q = c) :
    (hasWinningCell b 'O' = false → find_best_move .HARD b coin k = mv c)
  ∧ (hasWinningCell b 'O' = true →
      ∃ w, completesLine b 'O' w ∧ find_best_move .HARD b coin k = mv w) := by
  have hce : b c.1 c.2 = ' ' := (completesLine_def.mp hc).1
  have hcm : c ∈ get_empty_cells b := mem_get_empty_cells.mpr hce
  have hne : get_empty_cells b ≠ [] := fun h => by rw [h] at hcm; cases hcm
  obtain ⟨p, ps, hEc⟩ := List.exists_cons_of_ne_nil hne
  have hbm : best_moves b ≠ [] := best_moves_ne_nil hEc
  have hq0 : choiceL (best_moves b) k ∈ best_moves b := choiceL_mem hbm k
  have hfind : find_best_move .HARD b coin k = mv (choiceL (best_moves b) k) := by
    rw [find_best_move_hard_eq]
    simp [List.isEmpty_eq_false.mpr hbm]
  constructor
  · intro hno
    have hnoO : ∀ q, ¬ completesLine b 'O' q := by
      intro q hq
      have hwc : hasWinningCell b 'O' = true := hasWinningCell_iff.mpr ⟨q, hq⟩
      rw [hno] at hwc
      cases hwc
    have hcq := best_moves_block hb hc huniq hnoO _ hq0
    rw [hfind, hcq]
  · intro hyes
    obtain ⟨w, hw⟩ := hasWinningCell_iff.mp hyes
    exact ⟨choiceL (best_moves b) k, best_moves_O_win hb hw _ hq0, hfind⟩

/-- C4 counterexample to the claim as stated: on the legal fork position
`bFork` the human is one move from completing row 0 (winning cell
`(0, 2)`) and also column 0 (winning cell `(1, 0)`), the computer has no
winning cell, yet Hard can select `(1, 2)`, which blocks neither line:
all four empty cells tie in the search and `random.choice` may return any
of them. -/
theorem C4_hard_block_cex :
    completesLine bFork 'X' ((0 : Fin 3), (2 : Fin 3))
  ∧ completesLine bFork 'X' ((1 : Fin 3), (0 : Fin 3))
  ∧ hasWinningCell bFork 'O' = false
  ∧ check_winner bFork = none
  ∧ find_best_move .HARD bFork true 2 = (1, 2)
  ∧ ¬ completesLine bFork 'X' ((1 : Fin 3), (2 : Fin 3)) := by decide

/-- C4 witness: on the single-threat board `bT` Hard blocks at `(0, 2)`
for every random draw, and on `bW2` (human threat at `(0, 2)`, computer
win at `(1, 2)`) Hard takes the win. -/
theorem C4_hard_blocks_witness :
    find_best_move .HARD bT true 5 = mv ((0 : Fin 3), (2 : Fin 3))
  ∧ find_best_move .HARD bW2 false 3 = mv ((1 : Fin 3), (2 : Fin 3)) := by
  constructor
  · exact (C4_hard_blocks_or_wins bT true 5 ((0 : Fin 3), (2 : Fin 3))
      (by decide) (by decide) (by decide)).1 (by decide)
  · obtain ⟨w, hw, hsel⟩ := (C4_hard_blocks_or_wins bW2 false 3
      ((0 : Fin 3), (2 : Fin 3)) (by decide) (by decide) (by decide)).2 (by decide)
    have huniqO : ∀ q, completesLine bW2 'O' q → q = ((1 : Fin 3), (2 : Fin 3)) := by
      decide
    rw [huniqO w hw] at hsel
    exact hsel

/-- C1 (amended).  For coordinates in `0..2`, `make_move` writes the
symbol exactly when the cell is empty, reports the write as its boolean
result, increments the ply counter exactly on success and raises nothing;
a coordinate outside `-3..2` raises `IndexError` (the `none` result)
instead of reporting a boolean failure, and coordinates in `-3..-1` wrap
Python-style, acting on `row + 3` / `col + 3`. -/
theorem C1_make_move_spec (g : Game) (i j : Fin 3) (row col : Int)
    (player : Char) :
    (make_move g (i.val : Int) (j.val : Int) player =
      some (if g.board i j = ' '
        then ({ board := setCell g.board i j player,
                move_count := g.move_count + 1 }, true)
        else (g, false)))
  ∧ (¬ (-3 ≤ row ∧ row < 3) → make_move g row col player = none)
  ∧ ((-3 ≤ row ∧ row < 3) → ¬ (-3 ≤ col ∧ col < 3) →
      make_move g row col player = none)
  ∧ (make_move g ((i.val : Int) - 3) ((j.val : Int) - 3) player =
      make_move g (i.val : Int) (j.val : Int) player) := by
  refine ⟨?_, ?_, ?_, ?_⟩
  · unfold make_move
    rw [pyIdx_coe i, pyIdx_coe j]
    show (if g.board i j = ' '
        then some (Game.mk (setCell g.board i j player) (g.move_count + 1), true)
        else some (g, false)) = _
    by_cases h : g.board i j = ' '
    · rw [if_pos h, if_pos h]
    · rw [if_neg h, if_neg h]
  · intro hr
    unfold make_move
    rw [pyIdx_none hr]
  · intro hr hcNot
    obtain ⟨i0, hi0⟩ := pyIdx_isSome hr
    unfold make_move
    rw [hi0, pyIdx_none hcNot]
  · unfold make_move
    rw [pyIdx_wrap i, pyIdx_wrap j, pyIdx_coe i, pyIdx_coe j]

/-- C1 counterexample to the claim as stated: `make_move(3, 0)` raises
`IndexError` (the `none` result) instead of returning a boolean failure,
and `make_move(-1, 0)` — out of the claimed 3x3 bounds — writes into row
2, increments the ply counter and reports success. -/
theorem C1_make_move_cex :
    make_move initGame 3 0 'X' = none
  ∧ (make_move initGame (-1) 0 'X').map
      (fun r => (r.1.board 2 0, r.1.move_count, r.2)) = some ('X', 1, true) := by
  decide

/-- C7.  The recursive search and the top-level scoring loop hand back the
board they were given: every tentative placement made on the shared board
is undone before returning. -/
theorem C7_search_restores_board (fuel : Nat) (b : Board) (d : Int) (m : Bool) :
    (minimaxS fuel b d m).2 = b ∧ (bestLoopS b).2 = b := by
  constructor
  · rw [minimaxS_spec]
  · rw [bestLoopS_spec]

/-- C8.  Saving a well-formed score record and reloading it yields the
record field for field; a `best_time` holding the infinity sentinel comes
back as the sentinel ("unset"), never as a numeric value. -/
theorem C8_stats_round_trip (s : Stats) :
    load_stats (save_stats s) = some s
  ∧ (s.best_time = BTime.inf →
      ∀ n : Int, (load_stats (save_stats s)).map Stats.best_time ≠
        some (BTime.fin n)) := by
  have h1 : load_stats (save_stats s) = some s := by
    rcases s with ⟨w, l, dr, ws, bt, gp, ⟨e, md, h⟩⟩
    cases bt <;> rfl
  refine ⟨h1, fun hs n => ?_⟩
  simp [h1, hs]

/-- C8 witness: the round trip applied at a record whose `best_time` is
the infinity sentinel. -/
theorem C8_stats_round_trip_witness :
    load_stats (save_stats ⟨3, 1, 2, 0, BTime.inf, 6, ⟨1, 1, 1⟩⟩) =
      some ⟨3, 1, 2, 0, BTime.inf, 6, ⟨1, 1, 1⟩⟩
  ∧ (load_stats (save_stats ⟨3, 1, 2, 0, BTime.inf, 6, ⟨1, 1, 1⟩⟩)).map
      Stats.best_time ≠ some (BTime.fin 7) :=
  ⟨(C8_stats_round_trip ⟨3, 1, 2, 0, BTime.inf, 6, ⟨1, 1, 1⟩⟩).1,
   (C8_stats_round_trip ⟨3, 1, 2, 0, BTime.inf, 6, ⟨1, 1, 1⟩⟩).2 rfl 7⟩

/-- C9.  The board is full exactly when the empty-cell list is empty. -/
theorem C9_full_iff_no_empty (b : Board) :
    is_board_full b = true ↔ get_empty_cells b = [] := is_board_full_iff

/-- C10.  One statistics update adds one game, adds one to exactly one of
wins/losses/draws ('W' to wins, 'L' to losses, anything else to draws),
preserves `wins + losses + draws = games_played`, never increases
`best_time`, and changes `best_time` only on a win. -/
theorem C10_update_game_spec (s : Stats) (result : Char) (t : Int)
    (dl : DLabel) :
    ((update_game s result t dl).games_played = s.games_played + 1)
  ∧ (result = 'W' →
      (update_game s result t dl).wins = s.wins + 1 ∧
      (update_game s result t dl).losses = s.losses ∧
      (update_game s result t dl).draws = s.draws)
  ∧ (result = 'L' →
      (update_game s result t dl).losses = s.losses + 1 ∧
      (update_game s result t dl).wins = s.wins ∧
      (update_game s result t dl).draws = s.draws)
  ∧ (result ≠ 'W' → result ≠ 'L' →
      (update_game s result t dl).draws = s.draws + 1 ∧
      (update_game s result t dl).wins = s.wins ∧
      (update_game s result t dl).losses = s.losses)
  ∧ (s.wins + s.losses + s.draws = s.games_played →
      (update_game s result t dl).wins + (update_game s result t dl).losses +
        (update_game s result t dl).draws =
        (update_game s result t dl).games_played)
  ∧ BTime.le (update_game s result t dl).best_time s.best_time
  ∧ (result ≠ 'W' → (update_game s result t dl).best_time = s.best_time) := by
  by_cases hW : result = 'W'
  · subst hW
    refine ⟨by simp [update_game],
      fun _ => ⟨by simp [update_game], by simp [update_game],
        by simp [update_game]⟩,
      fun hL => absurd hL (by decide),
      fun hne => absurd rfl hne,
      fun hinv => ?_, ?_, fun hne => absurd rfl hne⟩
    · simp only [update_game]
      simp
      omega
    · have hbt : (update_game s 'W' t dl).best_time =
          if BTime.ltInt t s.best_time then .fin t else s.best_time := by
        simp [update_game]
      rw [hbt]
      by_cases hlt : BTime.ltInt t s.best_time
      · rw [if_pos hlt]
        cases hsb : s.best_time with
        | inf => trivial
        | fin u =>
            rw [hsb] at hlt
            have hltu : t < u := hlt
            exact le_of_lt hltu
      · rw [if_neg hlt]
        exact BTime.le_refl _
  · by_cases hL : result = 'L'
    · subst hL
      refine ⟨by simp [update_game, hW],
        fun hw => absurd hw (by decide),
        fun _ => ⟨by simp [update_game, hW], by simp [update_game, hW],
          by simp [update_game, hW]⟩,
        fun _ hne => absurd rfl hne,
        fun hinv => ?_, ?_, fun _ => by simp [update_game, hW]⟩
      · simp only [update_game]
        simp [hW]
        omega
      · have hbt : (update_game s 'L' t dl).best_time = s.best_time := by
          simp [update_game, hW]
        rw [hbt]
        exact BTime.le_refl _
    · refine ⟨by simp [update_game, hW, hL],
        fun hw => absurd hw hW,
        fun hl => absurd hl hL,
        fun _ _ => ⟨by simp [update_game, hW, hL], by simp [update_game, hW, hL],
          by simp [update_game, hW, hL]⟩,
        fun hinv => ?_, ?_, fun _ => by simp [update_game, hW, hL]⟩
      · simp only [update_game]
        simp [hW, hL]
        omega
      · have hbt : (update_game s result t dl).best_time = s.best_time := by
          simp [update_game, hW, hL]
        rw [hbt]
        exact BTime.le_refl _

end TicTacToe
